import Mathlib

/-!
# Verification of the CaDiCaL conflict-analysis kernel (`src/analyze.cpp`)

This file gives a shallow embedding of the conflict-analysis and
activity-bumping kernel of the CDCL SAT solver (the file `analyze.cpp`)
and proves the specification claims about it.

Modelling conventions:
* literals are nonzero integers, negation is integer negation;
* machine `int` counters become `Int`/`Nat` (no overflow is relevant here);
* the floating point activity scores become exact rationals `ℚ`
  (the threshold `1e100` becomes `(10:ℚ)^100`);
* the variable table, value table, clause table and per-level control
  records (arrays in C++) become functions updated pointwise;
* clause pointers become clause ids (`Nat`) into the clause table;
* the VMTF doubly linked decision queue (declared in the solver headers,
  not part of `analyze.cpp`) is modelled from the spec as the list of the
  linked variables in queue order, least recently enqueued first, so the
  last element of the list is the "front" (most recently moved to front);
  `next` points towards the front, so exactly the detached variables and
  the front variable have no `next`;
* the analysis loop of `Internal::analyze`, a `for (;;)` loop in C++,
  takes explicit fuel and returns `none` when the fuel runs out or an
  iterator would run off the trail.
-/

namespace Cadical

/-- Pointwise update of a table modelled as a function. -/
def upd {α : Type} (f : Nat → α) (i : Nat) (a : α) : Nat → α :=
  fun j => if j = i then a else f j

/-! ## Propositional semantics

Used to state soundness of the learned clause.  An assignment maps
variable indices to booleans; a clause is a list of literals. -/

/-- Truth value of a literal under an assignment of the variables. -/
def litSat (σ : Nat → Bool) (l : Int) : Bool :=
  if 0 < l then σ l.natAbs else !(σ l.natAbs)

/-- A clause is satisfied when one of its literals is true. -/
def clauseSat (σ : Nat → Bool) (C : List Int) : Prop :=
  ∃ l ∈ C, litSat σ l = true

/-- `entails F C`: every assignment satisfying all clauses of the
formula `F` satisfies the clause `C`. -/
def entails (F : List (List Int)) (C : List Int) : Prop :=
  ∀ σ : Nat → Bool, (∀ D ∈ F, clauseSat σ D) → clauseSat σ C

/-! ## Data model -/

/-- Proof tracer events (`Proof::trace_empty_clause`, `Proof::trace_unit_clause`). -/
inductive PEvent : Type
  | emptyClause : PEvent
  | unitClause : Int → PEvent
deriving DecidableEq

/-- Per-variable record (`Var` in the solver headers; the fields are the ones
`analyze.cpp` reads and writes).  A `reason` is the literal list of the forcing
clause (a weak reference in C++, modelled by value). -/
structure Var : Type where
  level : Nat
  trail : Nat
  reason : Option (List Int)
  seen : Bool
  bumped : Nat
  score : ℚ
deriving DecidableEq

/-- Per-decision-level control record (`Level` in the headers).
Modelled from the spec: `seen` counts analyzed literals of the level in the
current pass, `trailmin` is the minimal trail position of a seen literal of
the level (`none` is the reset sentinel, `INT_MAX` in C++). -/
structure LevelCtl : Type where
  seen : Nat
  trailmin : Option Nat
deriving DecidableEq

/-- Clause record (owned by the external clause database; the fields
`analyze.cpp` touches). `resolvedStamp` is the `resolved ()` recency stamp. -/
structure Clause : Type where
  lits : List Int
  redundant : Bool
  size : Nat
  glue : Nat
  extended : Bool
  resolvedStamp : Nat
deriving DecidableEq

/-- The solver state (`Internal`).  Arrays become functions, clause pointers
become ids into `ctab`, the VMTF queue becomes the list of linked variables in
queue order (least recently enqueued first, so the last element is the front),
and `queue_assigned` is the cached assigned-frontier pointer. -/
structure Internal : Type where
  max_var : Nat
  level : Nat
  vtab : Nat → Var
  vals : Nat → Int
  trail : List Int
  control : Nat → LevelCtl
  conflict : Option Nat
  ctab : Nat → Clause
  ctab_next : Nat
  queue_order : List Nat
  queue_assigned : Option Nat
  scinc : ℚ
  clause : List Int
  seen : List Int
  levels : List Nat
  resolved : List Nat
  unsat : Bool
  iterating : Bool
  proofPresent : Bool
  proofEvents : List PEvent
  stats_fixed : Nat
  stats_bumped : Nat
  stats_resolved : Nat
  stats_units : Nat
  stats_binaries : Nat
  stats_rescored : Nat
  fast_glue_avg : ℚ
  slow_glue_avg : ℚ
  jump_avg : ℚ
  opts_bumpsort : Nat
  opts_minimize : Bool
  opts_decay : ℚ
  opts_keepsize : Nat
  opts_keepglue : Nat

/-- The overflow threshold `1e100` of the activity scores. -/
def scoreLimit : ℚ := 10 ^ 100

/-! ## Learning terminal clauses (`learn_empty_clause`, `learn_unit_clause`) -/

/-- `Internal::learn_empty_clause`: emit the proof tracer event when a tracer
is present and set the terminal unsatisfiable flag. -/
def learn_empty_clause (st : Internal) : Internal :=
  { st with
    proofEvents :=
      if st.proofPresent then st.proofEvents ++ [PEvent.emptyClause] else st.proofEvents,
    unsat := true }

/-- `Internal::learn_unit_clause`. -/
def learn_unit_clause (st : Internal) (lit : Int) : Internal :=
  { st with
    proofEvents :=
      if st.proofPresent then st.proofEvents ++ [PEvent.unitClause lit] else st.proofEvents,
    iterating := true,
    stats_fixed := st.stats_fixed + 1 }

/-- `Internal::iterate` (the external `report ('i')` call is out of scope). -/
def iterate (st : Internal) : Internal := { st with iterating := false }

/-! ## Activity scores (`rescore`) and the VMTF queue (`bump_variable`) -/

/-- `Internal::rescore`: divide the score of every variable `1..max_var` by
`scinc` and reset `scinc` to `1`. -/
def rescore (st : Internal) : Internal :=
  { st with
    stats_rescored := st.stats_rescored + 1,
    vtab := fun i =>
      if 1 ≤ i ∧ i ≤ st.max_var
      then { st.vtab i with score := (st.vtab i).score / st.scinc }
      else st.vtab i,
    scinc := 1 }

/-- Modelled from the spec: the successor link `v->next` of the doubly linked
decision queue (declared in the solver headers, not in `analyze.cpp`).  The
queue is the list of linked variables, least recently enqueued first; `next`
points towards the front (the last element), which therefore has no `next`,
and a detached variable (not in the list) has no `next` either. -/
def qnext : List Nat → Nat → Option Nat
  | [], _ => none
  | [_], _ => none
  | a :: b :: rest, v => if a = v then some b else qnext (b :: rest) v

/-- Modelled from the spec: the predecessor link `v->prev` of the queue. -/
def qprev : List Nat → Nat → Option Nat
  | [], _ => none
  | [_], _ => none
  | a :: b :: rest, v => if b = v then some a else qprev (b :: rest) v

/-- Modelled from the spec: `Queue::dequeue`, unlinking a variable. -/
def remove (v : Nat) : List Nat → List Nat
  | [] => []
  | x :: xs => if x = v then xs else x :: remove v xs

/-- Line 46 of `analyze.cpp`: if the assigned-frontier points at the bumped
variable, move it to the previous neighbour if one exists, else the next. -/
def bump_step_front (st : Internal) (v : Nat) : Internal :=
  if st.queue_assigned = some v then
    { st with queue_assigned :=
        match qprev st.queue_order v with
        | some p => some p
        | none => qnext st.queue_order v }
  else st

/-- Line 47 of `analyze.cpp`: `queue.dequeue (v), queue.enqueue (v)` — move
the variable to the front of the queue. -/
def bump_step_move (st : Internal) (v : Nat) : Internal :=
  { st with queue_order := remove v st.queue_order ++ [v] }

/-- Lines 48-49 of `analyze.cpp`: fresh `bumped` timestamp and score bump. -/
def bump_step_stamp (st : Internal) (v : Nat) : Internal :=
  { st with
    stats_bumped := st.stats_bumped + 1,
    vtab := upd st.vtab v { st.vtab v with
      bumped := st.stats_bumped + 1,
      score := (st.vtab v).score + st.scinc } }

/-- `Internal::bump_variable`: a no-op when the variable has no `next` link;
otherwise move the assigned-frontier off the variable if it points at it,
move the variable to the front of the queue (`dequeue` then `enqueue`),
stamp it with a fresh `bumped` timestamp, add `scinc` to its score (rescoring
on overflow), and point the frontier at it when it is unassigned. -/
def bump_variable (st : Internal) (v : Nat) : Internal :=
  if (qnext st.queue_order v).isNone then st
  else
    let st3 := bump_step_stamp (bump_step_move (bump_step_front st v) v) v
    let st4 := if scoreLimit < (st3.vtab v).score then rescore st3 else st3
    if st4.vals v = 0 then { st4 with queue_assigned := some v } else st4

/-! ## Group bumping (`sort_seen`, `bump_and_clear_seen_variables`)

The sorts use an insertion sort over a boolean comparator; the comparators
are the non-strict reflections of the strict C++ comparators, which order
the same elements the same way on distinct keys. -/

def insertLe {α : Type} (le : α → α → Bool) (x : α) : List α → List α
  | [] => [x]
  | y :: ys => if le x y then x :: y :: ys else y :: insertLe le x ys

def insortBy {α : Type} (le : α → α → Bool) : List α → List α
  | [] => []
  | x :: xs => insertLe le x (insortBy le xs)

/-- Comparator `bumped_earlier`. -/
def bumped_earlier (st : Internal) (a b : Int) : Bool :=
  decide ((st.vtab a.natAbs).bumped ≤ (st.vtab b.natAbs).bumped)

/-- Comparator `trail_smaller`. -/
def trail_smaller (st : Internal) (a b : Int) : Bool :=
  decide ((st.vtab a.natAbs).trail ≤ (st.vtab b.natAbs).trail)

/-- Comparator `bumped_plus_trail_smaller`. -/
def bumped_plus_trail_smaller (st : Internal) (a b : Int) : Bool :=
  decide ((st.vtab a.natAbs).bumped + (st.vtab a.natAbs).trail
          ≤ (st.vtab b.natAbs).bumped + (st.vtab b.natAbs).trail)

/-- Comparator `score_smaller`. -/
def score_smaller (st : Internal) (a b : Int) : Bool :=
  decide ((st.vtab a.natAbs).score ≤ (st.vtab b.natAbs).score)

/-- `Internal::sort_seen`: dispatch on `opts.bumpsort`.  The source spells
cases 3-5 with a stray semicolon (`case 3;`); per the spec's design note they
are dispatched as ordinary distinct cases. -/
def sort_seen (st : Internal) : Internal :=
  match st.opts_bumpsort with
  | 1 => { st with seen := insortBy (bumped_earlier st) st.seen }
  | 2 => { st with seen := insortBy (trail_smaller st) st.seen }
  | 3 => { st with seen := insortBy (bumped_plus_trail_smaller st) st.seen }
  | 4 => { st with seen := insortBy (score_smaller st) st.seen }
  | 5 => { st with seen := st.seen.reverse }
  | _ => st

/-- `Internal::bump_and_clear_seen_variables`: sort the seen literals, clear
each seen flag and bump the variable, clear the buffer, decay `scinc` and
rescore on overflow. -/
def bump_and_clear_seen_variables (st : Internal) : Internal :=
  let st1 := sort_seen st
  let st2 := st1.seen.foldl
    (fun s lit =>
      let idx := lit.natAbs
      let s1 := { s with vtab := upd s.vtab idx { s.vtab idx with seen := false } }
      bump_variable s1 idx) st1
  let st3 := { st2 with seen := [] }
  let st4 := { st3 with scinc := st3.scinc / st3.opts_decay }
  if scoreLimit < st4.scinc then rescore st4 else st4

/-! ## Clause recency stamping (`resolve_clause`, `bump_resolved_clauses`) -/

/-- Comparator `resolved_earlier`: existing recency stamps ascending. -/
def resolved_earlier (st : Internal) (a b : Nat) : Bool :=
  decide ((st.ctab a).resolvedStamp ≤ (st.ctab b).resolvedStamp)

/-- `Internal::resolve_clause`: collect a clause for recency stamping exactly
when it is redundant and above both keep thresholds. -/
def resolve_clause (st : Internal) (cid : Nat) : Internal :=
  let c := st.ctab cid
  if !c.redundant then st
  else if c.size ≤ st.opts_keepsize then st
  else if c.glue ≤ st.opts_keepglue then st
  else { st with resolved := st.resolved ++ [cid] }

/-- `Internal::bump_resolved_clauses`: sort the collected clauses by existing
stamp ascending, then stamp each with the next value of the global counter. -/
def bump_resolved_clauses (st : Internal) : Internal :=
  let sorted := insortBy (resolved_earlier st) st.resolved
  let st1 := sorted.foldl
    (fun s cid =>
      { s with
        stats_resolved := s.stats_resolved + 1,
        ctab := upd s.ctab cid { s.ctab cid with resolvedStamp := s.stats_resolved + 1 } })
    st
  { st1 with resolved := [] }

/-! ## Conflict analysis (`analyze_literal`, `analyze`) -/

/-- `Internal::analyze_literal`.  Already-seen and root-level literals are
no-ops returning `false`; otherwise the literal is appended to the learned
clause buffer when its level is below the current level, its level's control
record and the touched-levels list are updated, the variable is marked seen
and pushed on the seen buffer, and the call returns whether the literal's
level is the current level. -/
def analyze_literal (st : Internal) (lit : Int) : Bool × Internal :=
  let v := st.vtab lit.natAbs
  if v.seen then (false, st)
  else if v.level = 0 then (false, st)
  else
    let l := st.control v.level
    (v.level == st.level,
     { st with
        clause := if v.level < st.level then st.clause ++ [lit] else st.clause,
        levels := if l.seen = 0 then st.levels ++ [v.level] else st.levels,
        control := upd st.control v.level
          { seen := l.seen + 1,
            trailmin :=
              match l.trailmin with
              | none => some v.trail
              | some m => if v.trail < m then some v.trail else some m },
        vtab := upd st.vtab lit.natAbs { v with seen := true },
        seen := st.seen ++ [lit] })

/-- `Internal::clear_levels`. -/
def clear_levels (st : Internal) : Internal :=
  { st with
    control := st.levels.foldl (fun c l => upd c l { seen := 0, trailmin := none }) st.control,
    levels := [] }

/-- One scan of the current reason clause: run `analyze_literal` on each
literal in order, counting the literals found at the current level. -/
def scan_clause (st : Internal) (lits : List Int) (opn : Int) : Int × Internal :=
  lits.foldl
    (fun p l =>
      let r := analyze_literal p.2 l
      (if r.1 then p.1 + 1 else p.1, r.2))
    (opn, st)

/-- The trail walk `while (!var (uip = *--i).seen);`: the largest position
strictly below `i` holding a seen variable (`none` when the iterator would
run off the trail). -/
def find_uip (vtab : Nat → Var) (trail : List Int) : Nat → Option Nat
  | 0 => none
  | j + 1 => if (vtab (trail.getD j 0).natAbs).seen then some j else find_uip vtab trail j

/-- The `for (;;)` resolution loop of `Internal::analyze` (fuelled): scan the
current reason, walk the trail back to the next seen variable, stop when the
open count hits zero, else resolve with that variable's reason. -/
def analyze_loop : Nat → Internal → List Int → Int → Nat → Option (Internal × Int)
  | 0, _, _, _, _ => none
  | fuel + 1, st, reason, opn, i =>
    let p := scan_clause st reason opn
    match find_uip p.2.vtab p.2.trail i with
    | none => none
    | some j =>
      let uip := p.2.trail.getD j 0
      if p.1 - 1 = 0 then some (p.2, uip)
      else
        match (p.2.vtab uip.natAbs).reason with
        | none => none
        | some r => analyze_loop fuel p.2 r (p.1 - 1) j

/-- Lines 215-233 of `analyze.cpp`: register the conflict for recency
stamping, derive the first UIP by the resolution loop and append the negated
first UIP to the learned clause buffer.  Returns the updated state and the
first UIP literal. -/
def analyzeFirstUIP (fuel : Nat) (st : Internal) : Option (Internal × Int) :=
  match st.conflict with
  | none => none
  | some ccid =>
    let st0 := resolve_clause st ccid
    match analyze_loop fuel st0 (st0.ctab ccid).lits 0 st0.trail.length with
    | none => none
    | some p => some ({ p.1 with clause := p.1.clause ++ [-p.2] }, p.2)

/-- Modelled from the spec: clause database registration
(`new_learned_clause`, external to `analyze.cpp`): allocate a fresh redundant
clause holding the learned literals with the given glue. -/
def new_learned_clause (st : Internal) (glue : Nat) : Internal × Nat :=
  let cid := st.ctab_next
  ({ st with
      ctab := upd st.ctab cid
        { lits := st.clause, redundant := true, size := st.clause.length,
          glue := glue, extended := decide (st.opts_keepsize < st.clause.length),
          resolvedStamp := 0 },
      ctab_next := cid + 1 }, cid)

/-- Comparator `trail_greater_than`: descending trail position. -/
def trail_greater_than (st : Internal) (a b : Int) : Bool :=
  decide ((st.vtab b.natAbs).trail ≤ (st.vtab a.natAbs).trail)

/-- Lines 246-257 of `analyze.cpp`: count unit and binary learned clauses;
for a clause of more than one literal sort it by descending trail position,
register it with the clause database and take the level of the literal at
index 1 as backjump level; for a unit the backjump level is 0 and no clause
backs the assignment.  Returns the state, the jump level and the driving
clause id. -/
def jump_and_drive (st : Internal) (glue : Nat) : Internal × Nat × Option Nat :=
  let st0 := { st with
    stats_units := st.stats_units + (if st.clause.length = 1 then 1 else 0),
    stats_binaries := st.stats_binaries + (if st.clause.length = 2 then 1 else 0) }
  if 1 < st0.clause.length then
    -- the C++ comparator `trail_greater_than (this)` reads only the variable
    -- table, which the statistics update above does not touch
    let sorted := insortBy (trail_greater_than st) st0.clause
    let st1 := { st0 with clause := sorted }
    let p := new_learned_clause st1 glue
    (p.1, ((p.1.vtab (sorted.getD 1 0).natAbs).level, some p.2))
  else
    (st0, (0, none))

/-- Modelled from the spec: `backtrack(level)` of the external trail manager:
truncate the trail to the backjump level and unassign the removed literals. -/
def backtrack (st : Internal) (jump : Nat) : Internal :=
  let dropped := st.trail.filter (fun t => decide (jump < (st.vtab t.natAbs).level))
  { st with
    trail := st.trail.filter (fun t => decide ((st.vtab t.natAbs).level ≤ jump)),
    vals := dropped.foldl (fun f t => upd f t.natAbs 0) st.vals,
    level := jump }

/-- Modelled from the spec: `assign(lit, reason)` of the external trail
manager: record value, level, trail position and reason, append to the trail. -/
def assign (st : Internal) (lit : Int) (reason : Option Nat) : Internal :=
  let idx := lit.natAbs
  { st with
    vals := upd st.vals idx (if 0 < lit then 1 else -1),
    vtab := upd st.vtab idx
      { st.vtab idx with
        level := st.level,
        trail := st.trail.length,
        reason := reason.map (fun cid => (st.ctab cid).lits) },
    trail := st.trail ++ [lit] }

/-- Modelled from the spec: the `UPDATE_AVG` exponential moving average with
smoothing factor `f`. -/
def update_avg (f : ℚ) (avg x : ℚ) : ℚ := avg + (x - avg) * f

/-- `Internal::analyze`.  The clause minimizer is an external collaborator
and is passed as the function `minimizeFn`; the resolution loop takes fuel.
At decision level 0 the conflict is unconditional: learn the empty clause and
clear the conflict, touching nothing else. -/
def analyze (minimizeFn : List Int → List Int) (fuel : Nat) (st : Internal) : Internal :=
  match st.conflict with
  | none => st
  | some _ =>
    if st.level = 0 then { learn_empty_clause st with conflict := none }
    else
      match analyzeFirstUIP fuel st with
      | none => st
      | some p =>
        let st1 := p.1
        let uip := p.2
        let glue := st1.levels.length
        let st2 := bump_resolved_clauses st1
        let st3 := { st2 with
          fast_glue_avg := update_avg (1 / 32) st2.fast_glue_avg glue,
          slow_glue_avg := update_avg (1 / 4096) st2.slow_glue_avg glue }
        let st4 := if st3.opts_minimize then { st3 with clause := minimizeFn st3.clause } else st3
        let q := jump_and_drive st4 glue
        let st5 := { q.1 with jump_avg := update_avg (1 / 32) q.1.jump_avg q.2.1 }
        let st6 := assign (backtrack st5 q.2.1) (-uip) q.2.2
        let st7 := bump_and_clear_seen_variables st6
        let st8 := clear_levels { st7 with clause := [] }
        { st8 with conflict := none }

/-! ## Concrete states used by witnesses and counterexamples -/

/-- An unassigned, never-bumped variable record. -/
def defaultVar : Var :=
  { level := 0, trail := 0, reason := none, seen := false, bumped := 0, score := 0 }

/-- An empty clause record. -/
def defaultClause : Clause :=
  { lits := [], redundant := false, size := 0, glue := 0, extended := false, resolvedStamp := 0 }

/-- A quiescent solver state with no variables. -/
def baseSt : Internal :=
  { max_var := 0, level := 0, vtab := fun _ => defaultVar, vals := fun _ => 0,
    trail := [], control := fun _ => { seen := 0, trailmin := none }, conflict := none,
    ctab := fun _ => defaultClause, ctab_next := 0, queue_order := [],
    queue_assigned := none, scinc := 1, clause := [], seen := [], levels := [],
    resolved := [], unsat := false, iterating := false, proofPresent := true,
    proofEvents := [], stats_fixed := 0, stats_bumped := 0, stats_resolved := 0,
    stats_units := 0, stats_binaries := 0, stats_rescored := 0, fast_glue_avg := 0,
    slow_glue_avg := 0, jump_avg := 0, opts_bumpsort := 0, opts_minimize := false,
    opts_decay := 1 / 2, opts_keepsize := 3, opts_keepglue := 2 }

/-- A state in conflict at decision level 0 (root conflict). -/
def rootConflictSt : Internal := { baseSt with conflict := some 0 }

/-- A state with two scored variables, used as the C8 witness. -/
def rescoreSt : Internal :=
  { baseSt with
    max_var := 2, scinc := 2, queue_order := [1, 2],
    vtab := fun i =>
      if i = 1 then { defaultVar with score := 3 }
      else if i = 2 then { defaultVar with score := 5 }
      else defaultVar }

/-- A state in conflict at level 1 whose resolution passes through two
redundant, long, high-glue reason clauses.  Variable 1 is the decision,
clause 1 (`¬1 ∨ 2`) forced variable 2, clause 2 (`¬2 ∨ 3`) forced
variable 3, and clause 0 (`¬1 ∨ ¬3`) is the conflict.  With
`keepsize = 1` and `keepglue = 0`, clauses 1 and 2 are eligible for
recency stamping. -/
def twoStepSt : Internal :=
  { baseSt with
    max_var := 3, level := 1,
    trail := [1, 2, 3],
    vals := fun i => if 1 ≤ i ∧ i ≤ 3 then 1 else 0,
    vtab := fun i =>
      if i = 1 then { defaultVar with level := 1, trail := 0, reason := none }
      else if i = 2 then { defaultVar with level := 1, trail := 1, reason := some [-1, 2] }
      else if i = 3 then { defaultVar with level := 1, trail := 2, reason := some [-2, 3] }
      else defaultVar,
    conflict := some 0,
    ctab := fun c =>
      if c = 0 then
        { lits := [-1, -3], redundant := false, size := 2, glue := 1,
          extended := false, resolvedStamp := 0 }
      else if c = 1 then
        { lits := [-1, 2], redundant := true, size := 2, glue := 1,
          extended := true, resolvedStamp := 0 }
      else if c = 2 then
        { lits := [-2, 3], redundant := true, size := 2, glue := 1,
          extended := true, resolvedStamp := 0 }
      else defaultClause,
    ctab_next := 3,
    opts_keepsize := 1, opts_keepglue := 0 }

/-- A state at decision level 2 with variable 2 assigned at level 1
(falsifying the literal `-2`), used for the C5 counterexample and witness. -/
def analyzeLitSt : Internal :=
  { baseSt with
    max_var := 2, level := 2, trail := [2],
    vals := fun i => if i = 2 then 1 else 0,
    vtab := fun i => if i = 2 then { defaultVar with level := 1, trail := 0 } else defaultVar }

/-- The assigned-frontier invariant of the VMTF queue: the queue holds
distinct variables and, whenever some linked variable is unassigned, the
frontier points at an unassigned variable with only assigned variables
strictly closer to the front (the front is the end of the list). -/
def QueueInv (st : Internal) : Prop :=
  st.queue_order.Nodup ∧
  ((∃ u ∈ st.queue_order, st.vals u = 0) →
    ∃ a, st.queue_assigned = some a ∧ st.vals a = 0 ∧
      ∃ l1 l2, st.queue_order = l1 ++ a :: l2 ∧ ∀ u ∈ l2, st.vals u ≠ 0)

/-- A three-variable queue state satisfying the frontier invariant
(variable 2 assigned, frontier on variable 3 at the front), the C6 witness. -/
def queueSt : Internal :=
  { baseSt with
    max_var := 3, queue_order := [1, 2, 3], queue_assigned := some 3,
    vals := fun i => if i = 2 then 1 else 0 }

/-- A state at level 2 whose learned-clause buffer holds a literal of level 1
and a literal of level 2, used as the C4 witness. -/
def jumpSt : Internal :=
  { baseSt with
    max_var := 3, level := 2, trail := [1, 2, 3],
    vals := fun i => if 1 ≤ i ∧ i ≤ 3 then 1 else 0,
    vtab := fun i =>
      if i = 1 then { defaultVar with level := 0, trail := 0 }
      else if i = 2 then { defaultVar with level := 1, trail := 1 }
      else if i = 3 then { defaultVar with level := 2, trail := 2 }
      else defaultVar,
    clause := [-2, -3] }

/-! ## Invariants of the resolution loop -/

/-- The condition tracked by the resolution loop: the trail literal is seen
and assigned at the current decision level. -/
def pcond (st : Internal) (t : Int) : Bool :=
  (st.vtab t.natAbs).seen && ((st.vtab t.natAbs).level == st.level)

/-- The pending part of the implicit resolvent: negations of the seen
current-level trail literals strictly below trail position `i` (the literals
still to be resolved away before the first UIP is reached). -/
def pend (st : Internal) (i : Nat) : List Int :=
  ((st.trail.take i).filter (pcond st)).map (fun t => -t)

/-- Number of seen current-level trail literals strictly below position `i`
(the meaning of the `open` counter). -/
def ccount (st : Internal) (i : Nat) : Nat :=
  (st.trail.take i).countP (pcond st)

/-- Well-formedness of the trail at the moment of conflict, the caller's
contract for `analyze`: positions recorded in the variable records match,
trail variables are distinct, levels are bounded by the current level and
monotone along the trail, root-level trail literals are entailed units of
the formula, the reason of a propagated literal is an entailed clause
containing the literal whose other literals are falsified earlier on the
trail, and only the first literal of a level block lacks a reason. -/
structure TrailWF (F : List (List Int)) (st : Internal) : Prop where
  nz : ∀ j, j < st.trail.length → st.trail.getD j 0 ≠ 0
  pos : ∀ j, j < st.trail.length → (st.vtab (st.trail.getD j 0).natAbs).trail = j
  distinct : ∀ j, j < st.trail.length → ∀ k, k < st.trail.length → j ≠ k →
    (st.trail.getD j 0).natAbs ≠ (st.trail.getD k 0).natAbs
  lev_le : ∀ j, j < st.trail.length → (st.vtab (st.trail.getD j 0).natAbs).level ≤ st.level
  lev_mono : ∀ k, k < st.trail.length → ∀ j, j ≤ k →
    (st.vtab (st.trail.getD j 0).natAbs).level ≤ (st.vtab (st.trail.getD k 0).natAbs).level
  root_ent : ∀ j, j < st.trail.length → (st.vtab (st.trail.getD j 0).natAbs).level = 0 →
    entails F [st.trail.getD j 0]
  reason_ok : ∀ j, j < st.trail.length →
    ∀ R, (st.vtab (st.trail.getD j 0).natAbs).reason = some R →
    entails F R ∧ st.trail.getD j 0 ∈ R ∧
    (∀ r ∈ R, r ≠ st.trail.getD j 0 → ∃ p, p < j ∧ st.trail.getD p 0 = -r)
  dec_first : ∀ j, j < st.trail.length → 0 < j →
    (st.vtab (st.trail.getD j 0).natAbs).level =
      (st.vtab (st.trail.getD (j - 1) 0).natAbs).level →
    (st.vtab (st.trail.getD j 0).natAbs).reason ≠ none
  lvl_pos : 0 < st.level

/-- The bookkeeping invariant of the resolution loop: seen trail variables
have positive level, the learned-clause buffer holds only literals of
positive level strictly below the current level, and every seen trail
variable below the current level has its falsified literal in the buffer. -/
structure AInv (st : Internal) : Prop where
  seen_pos : ∀ j, j < st.trail.length →
    (st.vtab (st.trail.getD j 0).natAbs).seen = true →
    0 < (st.vtab (st.trail.getD j 0).natAbs).level
  clause_lits : ∀ l ∈ st.clause,
    0 < (st.vtab l.natAbs).level ∧ (st.vtab l.natAbs).level < st.level
  low_seen : ∀ j, j < st.trail.length →
    (st.vtab (st.trail.getD j 0).natAbs).seen = true →
    (st.vtab (st.trail.getD j 0).natAbs).level < st.level →
    -(st.trail.getD j 0) ∈ st.clause

/-- The conflict scenario of the spec (§8): three variables assigned at
levels 0, 1, 2, conflict clause `¬3 ∨ ¬2 ∨ ¬1`; used as the C1/C2 witness. -/
def uipSt : Internal :=
  { baseSt with
    max_var := 3, level := 2, trail := [1, 2, 3],
    vals := fun i => if 1 ≤ i ∧ i ≤ 3 then 1 else 0,
    vtab := fun i =>
      if i = 1 then { defaultVar with level := 0, trail := 0 }
      else if i = 2 then { defaultVar with level := 1, trail := 1 }
      else if i = 3 then { defaultVar with level := 2, trail := 2 }
      else defaultVar,
    conflict := some 0,
    ctab := fun c =>
      if c = 0 then
        { lits := [-3, -2, -1], redundant := false, size := 3, glue := 2,
          extended := false, resolvedStamp := 0 }
      else defaultClause,
    ctab_next := 1 }

/-- The formula of the witness scenario: the root unit `1` and the conflict
clause. -/
def uipFormula : List (List Int) := [[1], [-3, -2, -1]]

/-! ## Basic lemmas about the embedding -/

theorem upd_same {α : Type} (f : Nat → α) (i : Nat) (a : α) : upd f i a i = a := by
  simp [upd]

theorem upd_other {α : Type} (f : Nat → α) (i : Nat) (a : α) {j : Nat} (h : j ≠ i) :
    upd f i a j = f j := by
  simp [upd, h]

theorem entails_mem {F : List (List Int)} {C : List Int} (h : C ∈ F) : entails F C :=
  fun _ hσ => hσ C h

theorem clauseSat_sub {σ : Nat → Bool} {C C' : List Int}
    (hsub : ∀ l ∈ C, l ∈ C') (h : clauseSat σ C) : clauseSat σ C' := by
  obtain ⟨l, hl, hsat⟩ := h
  exact ⟨l, hsub l hl, hsat⟩

theorem entails_sub {F : List (List Int)} {C C' : List Int}
    (hsub : ∀ l ∈ C, l ∈ C') (h : entails F C) : entails F C' :=
  fun σ hσ => clauseSat_sub hsub (h σ hσ)

theorem litSat_neg {σ : Nat → Bool} {l : Int} (hl : l ≠ 0) :
    litSat σ (-l) = !(litSat σ l) := by
  rcases lt_trichotomy l 0 with h | h | h
  · have h1 : ¬ (0 < l) := by omega
    have h2 : (0:Int) < -l := by omega
    simp [litSat, h1, h2]
  · exact absurd h hl
  · have h2 : ¬ ((0:Int) < -l) := by omega
    simp [litSat, h, h2]

/-- Discharging a literal whose negation is a consequence of the formula:
if `F ⊨ A ∨ r ∨ B` and `F ⊨ ¬r` then `F ⊨ A ∨ B`. -/
theorem entails_unit_discharge {F : List (List Int)} {A B : List Int} {r : Int}
    (hr : r ≠ 0) (hC : entails F (A ++ r :: B)) (hu : entails F [-r]) :
    entails F (A ++ B) := by
  intro σ hσ
  obtain ⟨l, hl, hsat⟩ := hC σ hσ
  obtain ⟨u, hu', husat⟩ := hu σ hσ
  have hu0 : u = -r := by simpa using hu'
  subst hu0
  have hrfalse : litSat σ r = false := by
    have := litSat_neg (σ := σ) hr
    rw [this] at husat
    cases h : litSat σ r
    · rfl
    · rw [h] at husat; simp at husat
  rcases List.mem_append.mp hl with h | h
  · exact ⟨l, List.mem_append.mpr (Or.inl h), hsat⟩
  · rcases List.mem_cons.mp h with h | h
    · subst h; rw [hrfalse] at hsat; cases hsat
    · exact ⟨l, List.mem_append.mpr (Or.inr h), hsat⟩

/-- Semantic resolution: from `F ⊨ A ∨ ¬t` and `F ⊨ R` with `t ∈ R`
conclude `F ⊨ A ∨ (R \ t)`. -/
theorem entails_resolve {F : List (List Int)} {A R : List Int} {t : Int}
    (ht : t ≠ 0) (hC : entails F (A ++ [-t])) (hR : entails F R) :
    entails F (A ++ R.filter (fun r => !(r == t))) := by
  intro σ hσ
  cases hcase : litSat σ t
  · obtain ⟨r, hrR, hrsat⟩ := hR σ hσ
    have hrt : r ≠ t := by
      intro h; subst h; rw [hcase] at hrsat; cases hrsat
    refine ⟨r, List.mem_append.mpr (Or.inr ?_), hrsat⟩
    simp [List.mem_filter, hrR, hrt]
  · obtain ⟨l, hl, hsat⟩ := hC σ hσ
    rcases List.mem_append.mp hl with h | h
    · exact ⟨l, List.mem_append.mpr (Or.inl h), hsat⟩
    · have hlt : l = -t := by simpa using h
      subst hlt
      rw [litSat_neg ht, hcase] at hsat
      simp at hsat

/-! ## Projection lemmas for `rescore` and the `bump_variable` steps -/

theorem rescore_scinc (st : Internal) : (rescore st).scinc = 1 := rfl

theorem rescore_queue_order (st : Internal) : (rescore st).queue_order = st.queue_order := rfl

theorem rescore_queue_assigned (st : Internal) :
    (rescore st).queue_assigned = st.queue_assigned := rfl

theorem rescore_vals (st : Internal) : (rescore st).vals = st.vals := rfl

theorem rescore_score_of_range (st : Internal) {i : Nat} (h1 : 1 ≤ i) (h2 : i ≤ st.max_var) :
    ((rescore st).vtab i).score = (st.vtab i).score / st.scinc := by
  simp [rescore, h1, h2]

theorem bump_step_front_queue_order (st : Internal) (v : Nat) :
    (bump_step_front st v).queue_order = st.queue_order := by
  unfold bump_step_front; split <;> rfl

theorem bump_step_front_vtab (st : Internal) (v : Nat) :
    (bump_step_front st v).vtab = st.vtab := by
  unfold bump_step_front; split <;> rfl

theorem bump_step_front_vals (st : Internal) (v : Nat) :
    (bump_step_front st v).vals = st.vals := by
  unfold bump_step_front; split <;> rfl

theorem bump_step_front_scinc (st : Internal) (v : Nat) :
    (bump_step_front st v).scinc = st.scinc := by
  unfold bump_step_front; split <;> rfl

theorem bump_step_front_stats_bumped (st : Internal) (v : Nat) :
    (bump_step_front st v).stats_bumped = st.stats_bumped := by
  unfold bump_step_front; split <;> rfl

theorem bump_step_stamp_score (st : Internal) (v : Nat) :
    ((bump_step_stamp st v).vtab v).score = (st.vtab v).score + st.scinc := by
  simp [bump_step_stamp, upd_same]

theorem bump_step_stamp_bumped (st : Internal) (v : Nat) :
    ((bump_step_stamp st v).vtab v).bumped = st.stats_bumped + 1 := by
  simp [bump_step_stamp, upd_same]

theorem bump_step_stamp_queue_order (st : Internal) (v : Nat) :
    (bump_step_stamp st v).queue_order = st.queue_order := rfl

theorem bump_step_stamp_queue_assigned (st : Internal) (v : Nat) :
    (bump_step_stamp st v).queue_assigned = st.queue_assigned := rfl

theorem bump_step_stamp_vals (st : Internal) (v : Nat) :
    (bump_step_stamp st v).vals = st.vals := rfl

theorem bump_step_stamp_scinc (st : Internal) (v : Nat) :
    (bump_step_stamp st v).scinc = st.scinc := rfl

theorem bump_variable_of_none (st : Internal) (v : Nat)
    (hq : (qnext st.queue_order v).isNone = true) : bump_variable st v = st := by
  simp [bump_variable, hq]

/-! ## C3: root-level conflict -/

/-- C3: for every call to `analyze` with current decision level 0 and a
conflict set, the unsatisfiable terminal flag is set, the proof tracer's
empty-clause event is emitted exactly when a tracer is present, and the call
returns without learning: the learned-clause buffer stays empty, no clause is
registered (clause table and allocation counter unchanged), and no backjump
or assignment is performed (trail, values and decision level unchanged). -/
theorem analyze_root_conflict (mf : List Int → List Int) (fuel : Nat) (st : Internal)
    (c : Nat) (hc : st.conflict = some c) (hlvl : st.level = 0) (hcl : st.clause = []) :
    (analyze mf fuel st).unsat = true ∧
    (analyze mf fuel st).proofEvents =
      (if st.proofPresent then st.proofEvents ++ [PEvent.emptyClause] else st.proofEvents) ∧
    (analyze mf fuel st).clause = [] ∧
    (analyze mf fuel st).ctab = st.ctab ∧
    (analyze mf fuel st).ctab_next = st.ctab_next ∧
    (analyze mf fuel st).trail = st.trail ∧
    (analyze mf fuel st).vals = st.vals ∧
    (analyze mf fuel st).level = st.level := by
  simp [analyze, hc, hlvl, learn_empty_clause, hcl]

/-- Witness for C3 at a concrete root-conflict state. -/
theorem analyze_root_conflict_witness :
    rootConflictSt.conflict = some 0 ∧ rootConflictSt.level = 0 ∧ rootConflictSt.clause = [] ∧
    ((analyze id 5 rootConflictSt).unsat = true ∧
     (analyze id 5 rootConflictSt).proofEvents =
       (if rootConflictSt.proofPresent then rootConflictSt.proofEvents ++ [PEvent.emptyClause]
        else rootConflictSt.proofEvents) ∧
     (analyze id 5 rootConflictSt).clause = [] ∧
     (analyze id 5 rootConflictSt).ctab = rootConflictSt.ctab ∧
     (analyze id 5 rootConflictSt).ctab_next = rootConflictSt.ctab_next ∧
     (analyze id 5 rootConflictSt).trail = rootConflictSt.trail ∧
     (analyze id 5 rootConflictSt).vals = rootConflictSt.vals ∧
     (analyze id 5 rootConflictSt).level = rootConflictSt.level) :=
  ⟨rfl, rfl, rfl, analyze_root_conflict id 5 rootConflictSt 0 rfl rfl rfl⟩

/-! ## C10: frame of the root-conflict path -/

/-- C10: on the root-conflict path, the only state changes are setting the
unsatisfiable flag, appending the optional proof-trace event, and resetting
the conflict marker to none; every other component of the state (trail,
variable records, values, control records, queue, `scinc`, all buffers,
clause table, statistics, options, averages) is untouched. -/
theorem analyze_root_conflict_frame (mf : List Int → List Int) (fuel : Nat)
    (st : Internal) (c : Nat) (hc : st.conflict = some c) (hlvl : st.level = 0) :
    analyze mf fuel st =
      { st with
        unsat := true,
        conflict := none,
        proofEvents :=
          if st.proofPresent then st.proofEvents ++ [PEvent.emptyClause]
          else st.proofEvents } := by
  simp [analyze, hc, hlvl, learn_empty_clause]

/-- Witness for C10 at a concrete root-conflict state. -/
theorem analyze_root_conflict_frame_witness :
    rootConflictSt.conflict = some 0 ∧ rootConflictSt.level = 0 ∧
    analyze id 5 rootConflictSt =
      { rootConflictSt with
        unsat := true,
        conflict := none,
        proofEvents :=
          if rootConflictSt.proofPresent
          then rootConflictSt.proofEvents ++ [PEvent.emptyClause]
          else rootConflictSt.proofEvents } :=
  ⟨rfl, rfl, analyze_root_conflict_frame id 5 rootConflictSt 0 rfl rfl⟩

/-! ## C8: rescaling scores preserves their order

The floating-point scores are modelled as exact rationals. -/

/-- C8: the rescale pass divides the score of every variable `1..max_var` by
`scinc` and resets `scinc` to 1, and (for positive `scinc`) this preserves
the strict order of any two scores; moreover `bump_variable` triggers the
rescale whenever a bumped score would exceed the `1e100` threshold, after
which `scinc` is 1. -/
theorem rescore_preserves_order (st : Internal) (hs : 0 < st.scinc) (a b : Nat)
    (ha1 : 1 ≤ a) (ha2 : a ≤ st.max_var) (hb1 : 1 ≤ b) (hb2 : b ≤ st.max_var) :
    ((rescore st).vtab a).score = (st.vtab a).score / st.scinc ∧
    (rescore st).scinc = 1 ∧
    ((st.vtab a).score < (st.vtab b).score →
      ((rescore st).vtab a).score < ((rescore st).vtab b).score) ∧
    (∀ v : Nat, (qnext st.queue_order v).isNone = false →
      scoreLimit < (st.vtab v).score + st.scinc →
      (bump_variable st v).scinc = 1) := by
  refine ⟨rescore_score_of_range st ha1 ha2, rfl, ?_, ?_⟩
  · intro hab
    rw [rescore_score_of_range st ha1 ha2, rescore_score_of_range st hb1 hb2]
    exact (div_lt_div_iff_of_pos_right hs).mpr hab
  · intro v hq hover
    unfold bump_variable
    rw [hq]
    simp only [Bool.false_eq_true, if_false]
    have hcond : scoreLimit <
        ((bump_step_stamp (bump_step_move (bump_step_front st v) v) v).vtab v).score := by
      rw [bump_step_stamp_score]
      have h1 : (bump_step_move (bump_step_front st v) v).vtab = st.vtab := by
        simp [bump_step_move, bump_step_front_vtab]
      have h2 : (bump_step_move (bump_step_front st v) v).scinc = st.scinc := by
        simp [bump_step_move, bump_step_front_scinc]
      rw [h1, h2]
      exact hover
    rw [if_pos hcond]
    split
    · rfl
    · exact rescore_scinc _

/-- Witness for C8 at a concrete two-variable state. -/
theorem rescore_preserves_order_witness :
    (0 : ℚ) < rescoreSt.scinc ∧
    (((rescore rescoreSt).vtab 1).score = (rescoreSt.vtab 1).score / rescoreSt.scinc ∧
     (rescore rescoreSt).scinc = 1 ∧
     ((rescoreSt.vtab 1).score < (rescoreSt.vtab 2).score →
       ((rescore rescoreSt).vtab 1).score < ((rescore rescoreSt).vtab 2).score) ∧
     (∀ v : Nat, (qnext rescoreSt.queue_order v).isNone = false →
       scoreLimit < (rescoreSt.vtab v).score + rescoreSt.scinc →
       (bump_variable rescoreSt v).scinc = 1)) :=
  ⟨by norm_num [rescoreSt, baseSt],
   rescore_preserves_order rescoreSt (by norm_num [rescoreSt, baseSt]) 1 2
     (le_refl 1) (by norm_num [rescoreSt, baseSt]) (by norm_num [rescoreSt, baseSt])
     (by norm_num [rescoreSt, baseSt])⟩

/-! ## C9: the resolution loop never collects reason clauses

`resolve_clause` is invoked on the conflict clause only (line 217 of
`analyze.cpp`); the reason clauses consumed inside the resolution loop
(lines 220-231) are never passed to it, so eligible (redundant, long,
high-glue) reasons are not collected for recency stamping, contradicting
the spec's "collect every eligible clause touched during one resolution
pass". -/

/-- C9 failing input, evaluated: on `twoStepSt` the loop resolves with the
eligible redundant clauses 2 and 1, yet after the first-UIP derivation the
`resolved` collection is empty (the inegligible conflict clause 0 was the
only candidate offered to `resolve_clause`), even though clause 2 is
redundant and above both keep thresholds and was consumed as variable 3's
reason. -/
theorem resolve_clause_missing_in_loop :
    (analyzeFirstUIP 10 twoStepSt).map (fun p => (p.1.resolved, p.1.clause, p.2)) =
      some ([], [-1], 1) ∧
    (twoStepSt.ctab 2).redundant = true ∧
    twoStepSt.opts_keepsize < (twoStepSt.ctab 2).size ∧
    twoStepSt.opts_keepglue < (twoStepSt.ctab 2).glue ∧
    (twoStepSt.vtab 3).reason = some (twoStepSt.ctab 2).lits := by
  refine ⟨?_, rfl, by decide, by decide, rfl⟩
  rfl

/-! ## Characterization of `analyze_literal` -/

theorem analyze_literal_of_seen (st : Internal) (lit : Int)
    (h : (st.vtab lit.natAbs).seen = true) : analyze_literal st lit = (false, st) := by
  simp [analyze_literal, h]

theorem analyze_literal_of_root (st : Internal) (lit : Int)
    (h1 : (st.vtab lit.natAbs).seen = false) (h2 : (st.vtab lit.natAbs).level = 0) :
    analyze_literal st lit = (false, st) := by
  simp [analyze_literal, h1, h2]

theorem analyze_literal_trail (st : Internal) (lit : Int) :
    (analyze_literal st lit).2.trail = st.trail := by
  unfold analyze_literal
  dsimp only
  split
  · rfl
  split
  · rfl
  rfl

theorem analyze_literal_level (st : Internal) (lit : Int) :
    (analyze_literal st lit).2.level = st.level := by
  unfold analyze_literal
  dsimp only
  split
  · rfl
  split
  · rfl
  rfl

theorem analyze_literal_vtab_level (st : Internal) (lit : Int) (w : Nat) :
    ((analyze_literal st lit).2.vtab w).level = (st.vtab w).level := by
  unfold analyze_literal
  dsimp only
  split
  · rfl
  split
  · rfl
  dsimp only
  by_cases hw : w = lit.natAbs
  · subst hw; rw [upd_same]
  · rw [upd_other _ _ _ hw]

theorem analyze_literal_vtab_trail (st : Internal) (lit : Int) (w : Nat) :
    ((analyze_literal st lit).2.vtab w).trail = (st.vtab w).trail := by
  unfold analyze_literal
  dsimp only
  split
  · rfl
  split
  · rfl
  dsimp only
  by_cases hw : w = lit.natAbs
  · subst hw; rw [upd_same]
  · rw [upd_other _ _ _ hw]

theorem analyze_literal_vtab_reason (st : Internal) (lit : Int) (w : Nat) :
    ((analyze_literal st lit).2.vtab w).reason = (st.vtab w).reason := by
  unfold analyze_literal
  dsimp only
  split
  · rfl
  split
  · rfl
  dsimp only
  by_cases hw : w = lit.natAbs
  · subst hw; rw [upd_same]
  · rw [upd_other _ _ _ hw]

theorem analyze_literal_seen_mono (st : Internal) (lit : Int) (w : Nat)
    (h : (st.vtab w).seen = true) : ((analyze_literal st lit).2.vtab w).seen = true := by
  unfold analyze_literal
  dsimp only
  split
  · exact h
  split
  · exact h
  dsimp only
  by_cases hw : w = lit.natAbs
  · subst hw; rw [upd_same]
  · rw [upd_other _ _ _ hw]; exact h

theorem analyze_literal_seen_other (st : Internal) (lit : Int) (w : Nat)
    (hw : w ≠ lit.natAbs) :
    ((analyze_literal st lit).2.vtab w).seen = (st.vtab w).seen := by
  unfold analyze_literal
  dsimp only
  split
  · rfl
  split
  · rfl
  dsimp only
  rw [upd_other _ _ _ hw]

theorem analyze_literal_clause_sub (st : Internal) (lit : Int) :
    ∀ l ∈ st.clause, l ∈ (analyze_literal st lit).2.clause := by
  unfold analyze_literal
  dsimp only
  split
  · exact fun l hl => hl
  split
  · exact fun l hl => hl
  dsimp only
  intro l hl
  split
  · exact List.mem_append.mpr (Or.inl hl)
  · exact hl

theorem analyze_literal_clause_eq (st : Internal) (lit : Int)
    (h1 : (st.vtab lit.natAbs).seen = false) (h2 : (st.vtab lit.natAbs).level ≠ 0) :
    (analyze_literal st lit).2.clause =
      (if (st.vtab lit.natAbs).level < st.level then st.clause ++ [lit] else st.clause) := by
  simp [analyze_literal, h1, h2]

theorem analyze_literal_fst (st : Internal) (lit : Int)
    (h1 : (st.vtab lit.natAbs).seen = false) (h2 : (st.vtab lit.natAbs).level ≠ 0) :
    (analyze_literal st lit).1 = ((st.vtab lit.natAbs).level == st.level) := by
  simp [analyze_literal, h1, h2]

theorem analyze_literal_vtab_eq (st : Internal) (lit : Int)
    (h1 : (st.vtab lit.natAbs).seen = false) (h2 : (st.vtab lit.natAbs).level ≠ 0) :
    (analyze_literal st lit).2.vtab =
      upd st.vtab lit.natAbs { st.vtab lit.natAbs with seen := true } := by
  simp [analyze_literal, h1, h2]

theorem analyze_literal_seen_set (st : Internal) (lit : Int)
    (h1 : (st.vtab lit.natAbs).seen = false) (h2 : (st.vtab lit.natAbs).level ≠ 0) :
    ((analyze_literal st lit).2.vtab lit.natAbs).seen = true := by
  rw [analyze_literal_vtab_eq st lit h1 h2, upd_same]

/-! ## C5: what `analyze_literal` appends to the learned clause buffer

The claim states that for an unseen literal below the current decision level
the *negation* of the literal is appended; the code appends the literal
itself (which is the falsified occurrence, i.e. the negation of its trail
assignment). -/

/-- C5 counterexample: at `analyzeLitSt`, processing the falsified literal
`-2` (level 1 < current level 2) appends `-2` itself to the empty clause
buffer, not its negation `2` as the claim states. -/
theorem analyze_literal_negation_cex :
    (analyze_literal analyzeLitSt (-2)).2.clause = [-2] ∧
    ¬ ((analyze_literal analyzeLitSt (-2)).2.clause = analyzeLitSt.clause ++ [-(-2)]) := by
  constructor
  · rfl
  · intro h
    exact absurd h (by decide)

/-- C5 amended: for a literal not already seen and not assigned at level 0,
if its level is strictly below the current level then the literal *itself*
is appended to the learned-clause buffer (and the buffer is unchanged
otherwise); already-seen and level-0 literals leave the state entirely
unchanged and return `false`; and on the non-trivial path the call returns
`true` exactly when the literal's level equals the current decision level. -/
theorem analyze_literal_spec (st : Internal) (lit : Int) :
    ((st.vtab lit.natAbs).seen = true → analyze_literal st lit = (false, st)) ∧
    ((st.vtab lit.natAbs).seen = false → (st.vtab lit.natAbs).level = 0 →
      analyze_literal st lit = (false, st)) ∧
    ((st.vtab lit.natAbs).seen = false → (st.vtab lit.natAbs).level ≠ 0 →
      ((analyze_literal st lit).2.clause =
        (if (st.vtab lit.natAbs).level < st.level then st.clause ++ [lit] else st.clause) ∧
       ((analyze_literal st lit).1 = true ↔ (st.vtab lit.natAbs).level = st.level))) := by
  refine ⟨fun h => analyze_literal_of_seen st lit h,
          fun h1 h2 => analyze_literal_of_root st lit h1 h2,
          fun h1 h2 => ⟨analyze_literal_clause_eq st lit h1 h2, ?_⟩⟩
  rw [analyze_literal_fst st lit h1 h2]
  simp

/-- Witness for C5 at `analyzeLitSt` with the literal `-2`. -/
theorem analyze_literal_spec_witness :
    (analyzeLitSt.vtab (2 : Nat)).seen = false ∧
    (analyzeLitSt.vtab (2 : Nat)).level ≠ 0 ∧
    ((analyze_literal analyzeLitSt (-2)).2.clause =
      (if (analyzeLitSt.vtab (Int.natAbs (-2))).level < analyzeLitSt.level
       then analyzeLitSt.clause ++ [-2] else analyzeLitSt.clause) ∧
     ((analyze_literal analyzeLitSt (-2)).1 = true ↔
       (analyzeLitSt.vtab (Int.natAbs (-2))).level = analyzeLitSt.level)) :=
  ⟨rfl, by decide, (analyze_literal_spec analyzeLitSt (-2)).2.2 rfl (by decide)⟩

/-! ## Further projection lemmas for `bump_variable` -/

theorem bump_step_move_vtab (st : Internal) (v : Nat) :
    (bump_step_move st v).vtab = st.vtab := rfl

theorem bump_step_move_scinc (st : Internal) (v : Nat) :
    (bump_step_move st v).scinc = st.scinc := rfl

theorem bump_step_move_stats_bumped (st : Internal) (v : Nat) :
    (bump_step_move st v).stats_bumped = st.stats_bumped := rfl

theorem bump_step_move_vals (st : Internal) (v : Nat) :
    (bump_step_move st v).vals = st.vals := rfl

theorem bump_step_move_queue_order (st : Internal) (v : Nat) :
    (bump_step_move st v).queue_order = remove v st.queue_order ++ [v] := rfl

theorem bump_step_stamp_stats_bumped (st : Internal) (v : Nat) :
    (bump_step_stamp st v).stats_bumped = st.stats_bumped + 1 := rfl

theorem ite_qassigned_vtab (c : Prop) [Decidable c] (x : Internal) (v : Nat) :
    (if c then { x with queue_assigned := some v } else x).vtab = x.vtab := by
  split <;> rfl

theorem ite_qassigned_queue_order (c : Prop) [Decidable c] (x : Internal) (v : Nat) :
    (if c then { x with queue_assigned := some v } else x).queue_order = x.queue_order := by
  split <;> rfl

theorem ite_qassigned_stats_bumped (c : Prop) [Decidable c] (x : Internal) (v : Nat) :
    (if c then { x with queue_assigned := some v } else x).stats_bumped = x.stats_bumped := by
  split <;> rfl

theorem ite_qassigned_vals (c : Prop) [Decidable c] (x : Internal) (v : Nat) :
    (if c then { x with queue_assigned := some v } else x).vals = x.vals := by
  split <;> rfl

/-! ## C7: what `bump_variable` does to a linked variable

The claim says the no-op case is exactly the detached variables; in the code
the guard is `if (!v->next) return;`, and the most recently enqueued (front)
variable also has no `next` while still being linked, so the claim's "exactly"
fails there. -/

/-- C7 counterexample: in `rescoreSt` the queue is `[1, 2]`; variable 2 is
linked (it is the front, the most recently enqueued), yet `bump_variable` is
a no-op on it, contradicting "no-op exactly when detached". -/
theorem bump_variable_detached_iff_cex :
    (2 ∈ rescoreSt.queue_order) ∧ bump_variable rescoreSt 2 = rescoreSt := by
  exact ⟨by decide, rfl⟩

/-- C7 amended: `bump_variable` is a no-op exactly when the variable has no
`next` link — that is, when it is detached *or already at the front of the
queue*; in every other case it adds `scinc` to the variable's score, gives it
the fresh strictly larger `bumped` timestamp, relinks it at the front of the
queue and increments the global bump counter.  (Stated under the invariants
that existing timestamps do not exceed the global counter and that the new
score does not overflow the rescale threshold.) -/
theorem bump_variable_spec (st : Internal) (v : Nat)
    (hbound : ∀ u : Nat, (st.vtab u).bumped ≤ st.stats_bumped)
    (hsc : (st.vtab v).score + st.scinc ≤ scoreLimit) :
    ((qnext st.queue_order v).isNone = true → bump_variable st v = st) ∧
    ((qnext st.queue_order v).isNone = false →
      ((bump_variable st v).vtab v).score = (st.vtab v).score + st.scinc ∧
      ((bump_variable st v).vtab v).bumped = st.stats_bumped + 1 ∧
      (st.vtab v).bumped < ((bump_variable st v).vtab v).bumped ∧
      (bump_variable st v).queue_order = remove v st.queue_order ++ [v] ∧
      (bump_variable st v).stats_bumped = st.stats_bumped + 1) := by
  constructor
  · exact fun hq => bump_variable_of_none st v hq
  · intro hq
    unfold bump_variable
    rw [hq]
    simp only [Bool.false_eq_true, if_false]
    have hvt : (bump_step_move (bump_step_front st v) v).vtab = st.vtab := by
      rw [bump_step_move_vtab, bump_step_front_vtab]
    have hsi : (bump_step_move (bump_step_front st v) v).scinc = st.scinc := by
      rw [bump_step_move_scinc, bump_step_front_scinc]
    have hsb : (bump_step_move (bump_step_front st v) v).stats_bumped = st.stats_bumped := by
      rw [bump_step_move_stats_bumped, bump_step_front_stats_bumped]
    have hscore3 :
        ((bump_step_stamp (bump_step_move (bump_step_front st v) v) v).vtab v).score =
          (st.vtab v).score + st.scinc := by
      rw [bump_step_stamp_score, hvt, hsi]
    have hcond :
        ¬ (scoreLimit <
          ((bump_step_stamp (bump_step_move (bump_step_front st v) v) v).vtab v).score) := by
      rw [hscore3]; exact not_lt.mpr hsc
    rw [if_neg hcond]
    refine ⟨?_, ?_, ?_, ?_, ?_⟩
    · rw [ite_qassigned_vtab]; exact hscore3
    · rw [ite_qassigned_vtab, bump_step_stamp_bumped, hsb]
    · rw [ite_qassigned_vtab, bump_step_stamp_bumped, hsb]
      exact Nat.lt_succ_of_le (hbound v)
    · rw [ite_qassigned_queue_order, bump_step_stamp_queue_order,
          bump_step_move_queue_order, bump_step_front_queue_order]
    · rw [ite_qassigned_stats_bumped, bump_step_stamp_stats_bumped, hsb]

/-- Witness for C7: bumping variable 1 (linked, not at the front) in
`rescoreSt`. -/
theorem bump_variable_spec_witness :
    ((qnext rescoreSt.queue_order 1).isNone = true → bump_variable rescoreSt 1 = rescoreSt) ∧
    ((qnext rescoreSt.queue_order 1).isNone = false →
      ((bump_variable rescoreSt 1).vtab 1).score = (rescoreSt.vtab 1).score + rescoreSt.scinc ∧
      ((bump_variable rescoreSt 1).vtab 1).bumped = rescoreSt.stats_bumped + 1 ∧
      (rescoreSt.vtab 1).bumped < ((bump_variable rescoreSt 1).vtab 1).bumped ∧
      (bump_variable rescoreSt 1).queue_order = remove 1 rescoreSt.queue_order ++ [1] ∧
      (bump_variable rescoreSt 1).stats_bumped = rescoreSt.stats_bumped + 1) :=
  bump_variable_spec rescoreSt 1
    (by
      intro u
      unfold rescoreSt baseSt defaultVar
      dsimp only
      split_ifs <;> exact Nat.le_refl 0)
    (by norm_num [rescoreSt, baseSt, defaultVar, scoreLimit])

/-! ## Lemmas about the queue list model (`qnext`, `remove`) -/

theorem mem_of_qnext {l : List Nat} {v : Nat} (h : (qnext l v).isNone = false) : v ∈ l := by
  induction l with
  | nil => simp [qnext] at h
  | cons a tail ih =>
    cases tail with
    | nil => simp [qnext] at h
    | cons b rest =>
      by_cases hav : a = v
      · subst hav; exact List.mem_cons_self a _
      · have : qnext (a :: b :: rest) v = qnext (b :: rest) v := by
          simp [qnext, hav]
        rw [this] at h
        exact List.mem_cons_of_mem a (ih h)

theorem mem_remove_sub (v : Nat) (l : List Nat) (a : Nat) (h : a ∈ remove v l) : a ∈ l := by
  induction l with
  | nil => simp [remove] at h
  | cons x xs ih =>
    by_cases hx : x = v
    · subst hx
      simp only [remove, if_pos rfl] at h
      exact List.mem_cons_of_mem x h
    · simp only [remove, if_neg hx] at h
      rcases List.mem_cons.mp h with h | h
      · exact h ▸ List.mem_cons_self x xs
      · exact List.mem_cons_of_mem x (ih h)

theorem remove_cons_of_ne (v x : Nat) (l : List Nat) (hx : x ≠ v) :
    remove v (x :: l) = x :: remove v l := by
  simp [remove, hx]

theorem remove_cons_self (v : Nat) (l : List Nat) : remove v (v :: l) = l := by
  simp [remove]

theorem remove_append_left (v : Nat) (l1 l2 : List Nat) (h : v ∈ l1) :
    remove v (l1 ++ l2) = remove v l1 ++ l2 := by
  induction l1 with
  | nil => cases h
  | cons x xs ih =>
    by_cases hx : x = v
    · subst hx; simp [remove]
    · rcases List.mem_cons.mp h with h' | h'
      · exact absurd h'.symm hx
      · rw [List.cons_append, remove_cons_of_ne v x _ hx, remove_cons_of_ne v x _ hx,
            ih h', List.cons_append]

theorem remove_append_right (v : Nat) (l1 l2 : List Nat) (h : v ∉ l1) :
    remove v (l1 ++ l2) = l1 ++ remove v l2 := by
  induction l1 with
  | nil => rfl
  | cons x xs ih =>
    have hx : x ≠ v := fun hh => h (hh ▸ List.mem_cons_self x xs)
    have hxs : v ∉ xs := fun hh => h (List.mem_cons_of_mem x hh)
    rw [List.cons_append, remove_cons_of_ne v x _ hx, ih hxs, List.cons_append]

theorem nodup_remove (v : Nat) (l : List Nat) (h : l.Nodup) : (remove v l).Nodup := by
  induction l with
  | nil => exact h
  | cons x xs ih =>
    rcases List.nodup_cons.mp h with ⟨hx, hxs⟩
    by_cases hxv : x = v
    · subst hxv; rwa [remove_cons_self]
    · rw [remove_cons_of_ne v x _ hxv]
      exact List.nodup_cons.mpr ⟨fun hh => hx (mem_remove_sub v xs x hh), ih hxs⟩

theorem not_mem_remove_self (v : Nat) (l : List Nat) (h : l.Nodup) : v ∉ remove v l := by
  induction l with
  | nil => simp [remove]
  | cons x xs ih =>
    rcases List.nodup_cons.mp h with ⟨hx, hxs⟩
    by_cases hxv : x = v
    · subst hxv; rwa [remove_cons_self]
    · rw [remove_cons_of_ne v x _ hxv]
      intro hh
      rcases List.mem_cons.mp hh with h' | h'
      · exact hxv h'.symm
      · exact ih hxs h'

/-! ## Queue projections of `bump_variable` -/

theorem bump_variable_vals (st : Internal) (v : Nat) :
    (bump_variable st v).vals = st.vals := by
  unfold bump_variable
  split
  · rfl
  · dsimp only
    rw [ite_qassigned_vals]
    split
    · rw [rescore_vals, bump_step_stamp_vals, bump_step_move_vals, bump_step_front_vals]
    · rw [bump_step_stamp_vals, bump_step_move_vals, bump_step_front_vals]

theorem bump_variable_order (st : Internal) (v : Nat)
    (hq : (qnext st.queue_order v).isNone = false) :
    (bump_variable st v).queue_order = remove v st.queue_order ++ [v] := by
  unfold bump_variable
  rw [hq]
  simp only [Bool.false_eq_true, if_false]
  rw [ite_qassigned_queue_order]
  split
  · rw [rescore_queue_order, bump_step_stamp_queue_order, bump_step_move_queue_order,
        bump_step_front_queue_order]
  · rw [bump_step_stamp_queue_order, bump_step_move_queue_order, bump_step_front_queue_order]

theorem bump_step_move_queue_assigned (st : Internal) (v : Nat) :
    (bump_step_move st v).queue_assigned = st.queue_assigned := rfl

theorem bump_step_front_assigned_of_ne (st : Internal) (v : Nat)
    (hne : st.queue_assigned ≠ some v) :
    (bump_step_front st v).queue_assigned = st.queue_assigned := by
  unfold bump_step_front
  rw [if_neg hne]

theorem bump_variable_assigned_of_unassigned (st : Internal) (v : Nat)
    (hq : (qnext st.queue_order v).isNone = false) (hv : st.vals v = 0) :
    (bump_variable st v).queue_assigned = some v := by
  unfold bump_variable
  rw [hq]
  simp only [Bool.false_eq_true, if_false]
  have hvals4 : ∀ x : Internal, (if scoreLimit < (x.vtab v).score then rescore x else x).vals
      = x.vals := by
    intro x; split
    · rw [rescore_vals]
    · rfl
  have hc : (if scoreLimit <
        ((bump_step_stamp (bump_step_move (bump_step_front st v) v) v).vtab v).score
      then rescore (bump_step_stamp (bump_step_move (bump_step_front st v) v) v)
      else bump_step_stamp (bump_step_move (bump_step_front st v) v) v).vals v = 0 := by
    rw [hvals4, bump_step_stamp_vals, bump_step_move_vals, bump_step_front_vals]
    exact hv
  rw [if_pos hc]

theorem bump_variable_assigned_of_ne (st : Internal) (v : Nat)
    (hq : (qnext st.queue_order v).isNone = false) (hvv : st.vals v ≠ 0)
    (hne : st.queue_assigned ≠ some v) :
    (bump_variable st v).queue_assigned = st.queue_assigned := by
  unfold bump_variable
  rw [hq]
  simp only [Bool.false_eq_true, if_false]
  have hvals4 : ∀ x : Internal, (if scoreLimit < (x.vtab v).score then rescore x else x).vals
      = x.vals := by
    intro x; split
    · rw [rescore_vals]
    · rfl
  have hc : ¬ ((if scoreLimit <
        ((bump_step_stamp (bump_step_move (bump_step_front st v) v) v).vtab v).score
      then rescore (bump_step_stamp (bump_step_move (bump_step_front st v) v) v)
      else bump_step_stamp (bump_step_move (bump_step_front st v) v) v).vals v = 0) := by
    rw [hvals4, bump_step_stamp_vals, bump_step_move_vals, bump_step_front_vals]
    exact hvv
  rw [if_neg hc]
  split
  · rw [rescore_queue_assigned, bump_step_stamp_queue_assigned,
        bump_step_move_queue_assigned, bump_step_front_assigned_of_ne st v hne]
  · rw [bump_step_stamp_queue_assigned, bump_step_move_queue_assigned,
        bump_step_front_assigned_of_ne st v hne]

/-! ## C6: the assigned-frontier invariant is preserved by bumping -/

/-- One `bump_variable` call preserves the queue invariant. -/
theorem bump_variable_queue_inv (st : Internal) (v : Nat) (h : QueueInv st) :
    QueueInv (bump_variable st v) := by
  by_cases hq : (qnext st.queue_order v).isNone = true
  · rw [bump_variable_of_none st v hq]; exact h
  · have hq' : (qnext st.queue_order v).isNone = false := by
      cases h2 : (qnext st.queue_order v).isNone
      · rfl
      · exact absurd h2 hq
    obtain ⟨hnd, hinv⟩ := h
    have hv : v ∈ st.queue_order := mem_of_qnext hq'
    have horder : (bump_variable st v).queue_order = remove v st.queue_order ++ [v] :=
      bump_variable_order st v hq'
    have hvals : (bump_variable st v).vals = st.vals := bump_variable_vals st v
    constructor
    · rw [horder]
      have h1 : (remove v st.queue_order).Nodup := nodup_remove v _ hnd
      have h2 : v ∉ remove v st.queue_order := not_mem_remove_self v _ hnd
      exact ((List.perm_append_singleton v _).nodup_iff).mpr (List.nodup_cons.mpr ⟨h2, h1⟩)
    · intro hex
      rw [hvals] at hex ⊢
      rw [horder] at hex
      by_cases hvv : st.vals v = 0
      · refine ⟨v, bump_variable_assigned_of_unassigned st v hq' hvv, hvv,
                remove v st.queue_order, [], ?_, ?_⟩
        · rw [horder]
        · intro u hu; cases hu
      · have hex' : ∃ u ∈ st.queue_order, st.vals u = 0 := by
          obtain ⟨u, hu, hu0⟩ := hex
          rcases List.mem_append.mp hu with h' | h'
          · exact ⟨u, mem_remove_sub v _ u h', hu0⟩
          · have : u = v := by simpa using h'
            subst this; exact absurd hu0 hvv
        obtain ⟨a, hassigned, ha0, l1, l2, hdec, hl2⟩ := hinv hex'
        have hav : a ≠ v := fun hh => by subst hh; exact hvv ha0
        have hne : st.queue_assigned ≠ some v := by
          rw [hassigned]; intro hh; exact hav (Option.some.inj hh)
        have hassigned' : (bump_variable st v).queue_assigned = some a := by
          rw [bump_variable_assigned_of_ne st v hq' hvv hne, hassigned]
        by_cases hvl1 : v ∈ l1
        · refine ⟨a, hassigned', ha0, remove v l1, l2 ++ [v], ?_, ?_⟩
          · rw [horder, hdec, remove_append_left v _ _ hvl1]
            simp
          · intro u hu
            rcases List.mem_append.mp hu with h' | h'
            · exact hl2 u h'
            · have : u = v := by simpa using h'
              subst this; exact hvv
        · have hvl2 : v ∈ l2 := by
            have hmem : v ∈ l1 ++ a :: l2 := hdec ▸ hv
            rcases List.mem_append.mp hmem with h' | h'
            · exact absurd h' hvl1
            · rcases List.mem_cons.mp h' with h' | h'
              · exact absurd h'.symm hav
              · exact h'
          refine ⟨a, hassigned', ha0, l1, remove v l2 ++ [v], ?_, ?_⟩
          · rw [horder, hdec, remove_append_right v _ _ hvl1,
                remove_cons_of_ne v a _ hav]
            simp
          · intro u hu
            rcases List.mem_append.mp hu with h' | h'
            · exact hl2 u (mem_remove_sub v _ u h')
            · have : u = v := by simpa using h'
              subst this; exact hvv

/-- C6: after any sequence of `bump_variable` calls starting from a state
satisfying the queue invariant, the assigned-frontier pointer still refers to
an unassigned variable and no unassigned variable sits strictly closer to the
front of the decision queue, whenever any unassigned linked variable exists. -/
theorem queue_assigned_invariant (st : Internal) (vs : List Nat) (h : QueueInv st) :
    QueueInv (vs.foldl bump_variable st) := by
  induction vs generalizing st with
  | nil => exact h
  | cons v rest ih => exact ih (bump_variable st v) (bump_variable_queue_inv st v h)

/-- Witness for C6: bumping variables 2 then 1 in `queueSt`. -/
theorem queue_assigned_invariant_witness :
    QueueInv queueSt ∧ QueueInv (List.foldl bump_variable queueSt [2, 1]) := by
  have h : QueueInv queueSt := by
    constructor
    · decide
    · intro _
      exact ⟨3, rfl, rfl, [1, 2], [], rfl, by intro u hu; cases hu⟩
  exact ⟨h, queue_assigned_invariant queueSt [2, 1] h⟩

/-! ## Lemmas about the insertion sort -/

theorem mem_insertLe {α : Type} (le : α → α → Bool) (x a : α) (l : List α) :
    a ∈ insertLe le x l ↔ a = x ∨ a ∈ l := by
  induction l with
  | nil => simp [insertLe]
  | cons y ys ih =>
    simp only [insertLe]
    split
    · simp [List.mem_cons, or_comm, or_assoc, or_left_comm]
    · simp only [List.mem_cons, ih]
      tauto

theorem length_insertLe {α : Type} (le : α → α → Bool) (x : α) (l : List α) :
    (insertLe le x l).length = l.length + 1 := by
  induction l with
  | nil => rfl
  | cons y ys ih =>
    simp only [insertLe]
    split
    · rfl
    · simp [List.length_cons, ih]

theorem mem_insortBy {α : Type} (le : α → α → Bool) (a : α) (l : List α) :
    a ∈ insortBy le l ↔ a ∈ l := by
  induction l with
  | nil => simp [insortBy]
  | cons x xs ih =>
    simp only [insortBy, mem_insertLe, List.mem_cons, ih]

theorem length_insortBy {α : Type} (le : α → α → Bool) (l : List α) :
    (insortBy le l).length = l.length := by
  induction l with
  | nil => rfl
  | cons x xs ih =>
    simp only [insortBy, length_insertLe, List.length_cons, ih]

theorem pairwise_insertLe {α : Type} {le : α → α → Bool}
    (htot : ∀ a b : α, le a b = true ∨ le b a = true)
    (htr : ∀ a b c : α, le a b = true → le b c = true → le a c = true)
    (x : α) (l : List α) (hl : l.Pairwise (fun a b => le a b = true)) :
    (insertLe le x l).Pairwise (fun a b => le a b = true) := by
  induction l with
  | nil => simp [insertLe]
  | cons y ys ih =>
    rcases List.pairwise_cons.mp hl with ⟨hy, hys⟩
    simp only [insertLe]
    split
    · rename_i hxy
      refine List.pairwise_cons.mpr ⟨?_, hl⟩
      intro b hb
      rcases List.mem_cons.mp hb with h | h
      · exact h ▸ hxy
      · exact htr x y b hxy (hy b h)
    · rename_i hxy
      refine List.pairwise_cons.mpr ⟨?_, ih hys⟩
      intro b hb
      rcases (mem_insertLe le x b ys).mp hb with h | h
      · rw [h]
        rcases htot x y with h' | h'
        · exact absurd h' hxy
        · exact h'
      · exact hy b h

theorem pairwise_insortBy {α : Type} {le : α → α → Bool}
    (htot : ∀ a b : α, le a b = true ∨ le b a = true)
    (htr : ∀ a b c : α, le a b = true → le b c = true → le a c = true)
    (l : List α) : (insortBy le l).Pairwise (fun a b => le a b = true) := by
  induction l with
  | nil => simp [insortBy]
  | cons x xs ih => exact pairwise_insertLe htot htr x (insortBy le xs) ih

theorem exists_cons_cons {α : Type} (l : List α) (h : 1 < l.length) :
    ∃ a b t, l = a :: b :: t := by
  cases l with
  | nil => simp at h
  | cons a tail =>
    cases tail with
    | nil => simp at h
    | cons b t => exact ⟨a, b, t, rfl⟩

/-! ## C4: backjump level and clause registration -/

/-- C4: for a learned clause of more than one literal, `jump_and_drive` sorts
the buffer by strictly descending trail position, registers the sorted clause
with the clause database (as a redundant clause carrying the computed glue),
and the backjump level is the level of the literal at index 1, which is the
second-highest level in the clause (no later literal has a larger level, and
index 0 dominates index 1); for a single-literal clause the backjump level is
0, no clause object backs the assignment, and the unit counter is
incremented.  The hypothesis ties trail order to level order, as on a
level-sorted trail. -/
theorem backjump_level_spec (st : Internal) (glue : Nat)
    (hmono : ∀ a ∈ st.clause, ∀ b ∈ st.clause,
      (st.vtab b.natAbs).trail ≤ (st.vtab a.natAbs).trail →
      (st.vtab b.natAbs).level ≤ (st.vtab a.natAbs).level) :
    (st.clause.length = 1 →
      (jump_and_drive st glue).2.1 = 0 ∧
      (jump_and_drive st glue).2.2 = none ∧
      (jump_and_drive st glue).1.stats_units = st.stats_units + 1) ∧
    (1 < st.clause.length →
      ((jump_and_drive st glue).1.clause = insortBy (trail_greater_than st) st.clause ∧
       (jump_and_drive st glue).2.1 =
         (st.vtab ((insortBy (trail_greater_than st) st.clause).getD 1 0).natAbs).level ∧
       (jump_and_drive st glue).2.2 = some st.ctab_next ∧
       ((jump_and_drive st glue).1.ctab st.ctab_next).lits =
         insortBy (trail_greater_than st) st.clause ∧
       ((jump_and_drive st glue).1.ctab st.ctab_next).redundant = true ∧
       ((jump_and_drive st glue).1.ctab st.ctab_next).glue = glue ∧
       (∀ l ∈ (insortBy (trail_greater_than st) st.clause).drop 1,
         (st.vtab l.natAbs).level ≤
           (st.vtab ((insortBy (trail_greater_than st) st.clause).getD 1 0).natAbs).level) ∧
       (st.vtab ((insortBy (trail_greater_than st) st.clause).getD 1 0).natAbs).level ≤
         (st.vtab ((insortBy (trail_greater_than st) st.clause).getD 0 0).natAbs).level)) := by
  have htot : ∀ a b : Int,
      trail_greater_than st a b = true ∨ trail_greater_than st b a = true := by
    intro a b
    unfold trail_greater_than
    rcases Nat.le_total ((st.vtab b.natAbs).trail) ((st.vtab a.natAbs).trail) with h | h
    · exact Or.inl (decide_eq_true h)
    · exact Or.inr (decide_eq_true h)
  have htr : ∀ a b c : Int, trail_greater_than st a b = true →
      trail_greater_than st b c = true → trail_greater_than st a c = true := by
    intro a b c hab hbc
    unfold trail_greater_than at hab hbc ⊢
    exact decide_eq_true (le_trans (of_decide_eq_true hbc) (of_decide_eq_true hab))
  constructor
  · intro h1
    unfold jump_and_drive
    have hn : ¬ (1 < st.clause.length) := by omega
    rw [if_neg hn]
    exact ⟨rfl, rfl, by simp [h1]⟩
  · intro h2
    unfold jump_and_drive
    rw [if_pos h2]
    dsimp only
    have hp := pairwise_insortBy htot htr st.clause
    obtain ⟨s0, s1, rest, hq⟩ := exists_cons_cons (insortBy (trail_greater_than st) st.clause)
      (by rw [length_insortBy]; exact h2)
    refine ⟨rfl, rfl, rfl, by simp [new_learned_clause, upd_same],
      by simp [new_learned_clause, upd_same], by simp [new_learned_clause, upd_same],
      ?_, ?_⟩
    · rw [hq] at hp ⊢
      rcases List.pairwise_cons.mp hp with ⟨_, hp1⟩
      rcases List.pairwise_cons.mp hp1 with ⟨h1r, _⟩
      intro l hl
      rcases List.mem_cons.mp hl with h | h
      · subst h
        exact le_refl _
      · have hle := h1r l h
        have hmem1 : s1 ∈ st.clause := by
          rw [← mem_insortBy (trail_greater_than st)]
          rw [hq]; exact List.mem_cons_of_mem s0 (List.mem_cons_self s1 rest)
        have hmeml : l ∈ st.clause := by
          rw [← mem_insortBy (trail_greater_than st)]
          rw [hq]; exact List.mem_cons_of_mem s0 (List.mem_cons_of_mem s1 h)
        exact hmono s1 hmem1 l hmeml (of_decide_eq_true hle)
    · rw [hq] at hp ⊢
      rcases List.pairwise_cons.mp hp with ⟨h0r, _⟩
      have hle := h0r s1 (List.mem_cons_self s1 rest)
      have hmem0 : s0 ∈ st.clause := by
        rw [← mem_insortBy (trail_greater_than st)]
        rw [hq]; exact List.mem_cons_self s0 _
      have hmem1 : s1 ∈ st.clause := by
        rw [← mem_insortBy (trail_greater_than st)]
        rw [hq]; exact List.mem_cons_of_mem s0 (List.mem_cons_self s1 rest)
      exact hmono s0 hmem0 s1 hmem1 (of_decide_eq_true hle)

/-- Witness for C4: the two-literal buffer `[-2, -3]` of `jumpSt` (levels 1
and 2, trail positions 1 and 2). -/
theorem backjump_level_spec_witness :
    (jumpSt.clause.length = 1 →
      (jump_and_drive jumpSt 2).2.1 = 0 ∧
      (jump_and_drive jumpSt 2).2.2 = none ∧
      (jump_and_drive jumpSt 2).1.stats_units = jumpSt.stats_units + 1) ∧
    (1 < jumpSt.clause.length →
      ((jump_and_drive jumpSt 2).1.clause = insortBy (trail_greater_than jumpSt) jumpSt.clause ∧
       (jump_and_drive jumpSt 2).2.1 =
         (jumpSt.vtab ((insortBy (trail_greater_than jumpSt) jumpSt.clause).getD 1 0).natAbs).level ∧
       (jump_and_drive jumpSt 2).2.2 = some jumpSt.ctab_next ∧
       ((jump_and_drive jumpSt 2).1.ctab jumpSt.ctab_next).lits =
         insortBy (trail_greater_than jumpSt) jumpSt.clause ∧
       ((jump_and_drive jumpSt 2).1.ctab jumpSt.ctab_next).redundant = true ∧
       ((jump_and_drive jumpSt 2).1.ctab jumpSt.ctab_next).glue = 2 ∧
       (∀ l ∈ (insortBy (trail_greater_than jumpSt) jumpSt.clause).drop 1,
         (jumpSt.vtab l.natAbs).level ≤
           (jumpSt.vtab ((insortBy (trail_greater_than jumpSt) jumpSt.clause).getD 1 0).natAbs).level) ∧
       (jumpSt.vtab ((insortBy (trail_greater_than jumpSt) jumpSt.clause).getD 1 0).natAbs).level ≤
         (jumpSt.vtab ((insortBy (trail_greater_than jumpSt) jumpSt.clause).getD 0 0).natAbs).level)) :=
  backjump_level_spec jumpSt 2 (by decide)

/-! ## Indexing lemmas for trail prefixes -/

theorem getD_of_lt (l : List Int) {i : Nat} (h : i < l.length) :
    l[i]? = some (l.getD i 0) := by
  rw [List.getElem?_eq_getElem h]
  simp [List.getD_eq_getElem?_getD, List.getElem?_eq_getElem h]

theorem take_getD (l : List Int) {p i : Nat} (hp : p < i) :
    (l.take i).getD p 0 = l.getD p 0 := by
  simp [List.getD_eq_getElem?_getD, List.getElem?_take_of_lt hp]

theorem getD_mem_take (l : List Int) {p i : Nat} (hp : p < i) (hl : p < l.length) :
    l.getD p 0 ∈ l.take i := by
  have h1 : p < (l.take i).length := by
    simp only [List.length_take]
    omega
  have h2 : (l.take i)[p] = l.getD p 0 := by
    have := take_getD l hp
    rwa [List.getD_eq_getElem?_getD, List.getElem?_eq_getElem h1] at this
  exact h2 ▸ List.getElem_mem h1

theorem mem_take_exists (l : List Int) {i : Nat} {t : Int} (ht : t ∈ l.take i) :
    ∃ q, q < i ∧ q < l.length ∧ l.getD q 0 = t := by
  obtain ⟨q, hq, he⟩ := List.mem_iff_getElem.mp ht
  have hqi : q < i := by
    simp only [List.length_take] at hq
    omega
  have hql : q < l.length := by
    simp only [List.length_take] at hq
    omega
  refine ⟨q, hqi, hql, ?_⟩
  have h2 : (l.take i)[q] = l.getD q 0 := by
    have := take_getD l hqi
    rwa [List.getD_eq_getElem?_getD, List.getElem?_eq_getElem hq] at this
  rw [← h2, he]

theorem countP_congr_mem (f g : Int → Bool) (l : List Int) (h : ∀ a ∈ l, f a = g a) :
    l.countP f = l.countP g := by
  rw [List.countP_eq_length_filter, List.countP_eq_length_filter, List.filter_congr h]

theorem toList_some {α : Type} (a : α) : (some a).toList = [a] := rfl

theorem filter_take_split (f : Int → Bool) (l : List Int) (p : Nat)
    (hf : f (l.getD p 0) = true) :
    ∀ i, p < i → i ≤ l.length →
    (∀ q, p < q → q < i → f (l.getD q 0) = false) →
    (l.take i).filter f = (l.take p).filter f ++ [l.getD p 0] := by
  intro i
  induction i with
  | zero => intro h; exact absurd h (Nat.not_lt_zero p)
  | succ i ih =>
    intro hpi hlen hmid
    rw [List.take_succ, getD_of_lt l (show i < l.length by omega), toList_some,
        List.filter_append, List.filter_cons]
    by_cases hip : i = p
    · subst hip
      rw [if_pos hf, List.filter_nil]
    · have hpi' : p < i := by omega
      have hfi : f (l.getD i 0) = false := hmid i hpi' (by omega)
      rw [if_neg (by rw [hfi]; exact Bool.false_ne_true), List.filter_nil, List.append_nil]
      exact ih hpi' (by omega) (fun q hq1 hq2 => hmid q hq1 (by omega))

theorem countP_take_split (f : Int → Bool) (l : List Int) (p : Nat)
    (hf : f (l.getD p 0) = true) (i : Nat) (hpi : p < i) (hlen : i ≤ l.length)
    (hmid : ∀ q, p < q → q < i → f (l.getD q 0) = false) :
    (l.take i).countP f = (l.take p).countP f + 1 := by
  rw [List.countP_eq_length_filter, List.countP_eq_length_filter,
      filter_take_split f l p hf i hpi hlen hmid]
  simp

theorem countP_update (f g : Int → Bool) (l : List Int) (p : Nat) (hpl : p < l.length)
    (hcongr : ∀ q, q < l.length → q ≠ p → f (l.getD q 0) = g (l.getD q 0))
    (hf : f (l.getD p 0) = false) (hg : g (l.getD p 0) = true) :
    ∀ i, i ≤ l.length →
    (l.take i).countP g = (l.take i).countP f + (if p < i then 1 else 0) := by
  intro i
  induction i with
  | zero => simp
  | succ i ih =>
    intro hlen
    have hil : i < l.length := by omega
    rw [List.take_succ, getD_of_lt l hil, toList_some]
    simp only [List.countP_append, List.countP_cons, List.countP_nil]
    by_cases hip : i = p
    · subst hip
      rw [hf, hg]
      have hrec := ih (by omega)
      have hnp : ¬ (i < i) := by omega
      rw [if_neg hnp] at hrec
      have hp1 : i < i + 1 := by omega
      rw [if_pos hp1]
      simp only [Bool.false_eq_true, if_false, if_true]
      omega
    · rw [hcongr i hil hip]
      have hrec := ih (by omega)
      by_cases hpi : p < i
      · rw [if_pos hpi] at hrec
        rw [if_pos (by omega : p < i + 1)]
        omega
      · rw [if_neg hpi] at hrec
        rw [if_neg (by omega : ¬ p < i + 1)]
        omega

/-! ## Lemmas about `pend` and `ccount` -/

theorem mem_pend (st : Internal) (i : Nat) (x : Int) :
    x ∈ pend st i ↔ ∃ t ∈ st.trail.take i, pcond st t = true ∧ x = -t := by
  unfold pend
  simp only [List.mem_map, List.mem_filter]
  constructor
  · rintro ⟨t, ⟨ht, hc⟩, hx⟩
    exact ⟨t, ht, hc, hx.symm⟩
  · rintro ⟨t, ht, hc, hx⟩
    exact ⟨t, ⟨ht, hc⟩, hx.symm⟩

theorem pend_eq_nil (st : Internal) (i : Nat)
    (h : ∀ t ∈ st.trail.take i, pcond st t = false) : pend st i = [] := by
  unfold pend
  rw [List.filter_eq_nil_iff.mpr (fun a ha => by rw [h a ha]; exact Bool.false_ne_true)]
  rfl

theorem ccount_eq_zero_iff (st : Internal) (i : Nat) :
    ccount st i = 0 ↔ ∀ t ∈ st.trail.take i, ¬ (pcond st t = true) := by
  unfold ccount
  exact List.countP_eq_zero

theorem pend_eq_nil_of_ccount (st : Internal) (i : Nat) (h : ccount st i = 0) :
    pend st i = [] := by
  refine pend_eq_nil st i (fun t ht => ?_)
  have := (ccount_eq_zero_iff st i).mp h t ht
  cases hc : pcond st t
  · rfl
  · exact absurd hc this

theorem pend_split (st : Internal) {i j : Nat} (hj : j < i) (hi : i ≤ st.trail.length)
    (hcond : pcond st (st.trail.getD j 0) = true)
    (hmid : ∀ q, j < q → q < i → pcond st (st.trail.getD q 0) = false) :
    pend st i = pend st j ++ [-(st.trail.getD j 0)] ∧ ccount st i = ccount st j + 1 := by
  constructor
  · unfold pend
    rw [filter_take_split (pcond st) st.trail j hcond i hj hi hmid, List.map_append]
    rfl
  · exact countP_take_split (pcond st) st.trail j hcond i hj hi hmid

/-! ## Lemmas about `find_uip` -/

theorem find_uip_spec (vt : Nat → Var) (tr : List Int) :
    ∀ i j, find_uip vt tr i = some j →
    j < i ∧ (vt (tr.getD j 0).natAbs).seen = true ∧
    (∀ q, j < q → q < i → (vt (tr.getD q 0).natAbs).seen = false) := by
  intro i
  induction i with
  | zero => intro j h; simp [find_uip] at h
  | succ i ih =>
    intro j h
    unfold find_uip at h
    split at h
    · rename_i hseen
      have hij : i = j := by injection h
      subst hij
      exact ⟨Nat.lt_succ_self _, hseen, fun q hq1 hq2 => by omega⟩
    · rename_i hns
      obtain ⟨h1, h2, h3⟩ := ih j h
      refine ⟨by omega, h2, fun q hq1 hq2 => ?_⟩
      by_cases hqi : q = i
      · subst hqi
        cases hs : (vt (tr.getD q 0).natAbs).seen
        · rfl
        · exact absurd hs hns
      · exact h3 q hq1 (by omega)

theorem find_uip_isSome (vt : Nat → Var) (tr : List Int) :
    ∀ i p, p < i → (vt (tr.getD p 0).natAbs).seen = true →
    (find_uip vt tr i).isSome = true := by
  intro i
  induction i with
  | zero => intro p h; omega
  | succ i ih =>
    intro p hp hseen
    unfold find_uip
    split
    · rfl
    · rename_i hns
      have hpi : p ≠ i := by
        intro h
        subst h
        exact hns hseen
      exact ih p (by omega) hseen

/-! ## Lemmas about `scan_clause` -/

theorem scan_clause_nil (st : Internal) (opn : Int) : scan_clause st [] opn = (opn, st) := rfl

theorem scan_clause_cons (st : Internal) (r : Int) (rest : List Int) (opn : Int) :
    scan_clause st (r :: rest) opn =
      scan_clause (analyze_literal st r).2 rest
        (if (analyze_literal st r).1 then opn + 1 else opn) := rfl

theorem scan_clause_filter_seen (u : Int) :
    ∀ (lits : List Int) (st : Internal) (opn : Int),
    (st.vtab u.natAbs).seen = true →
    scan_clause st lits opn = scan_clause st (lits.filter (fun r => !(r == u))) opn := by
  intro lits
  induction lits with
  | nil => intro st opn _; rfl
  | cons r rest ih =>
    intro st opn hseen
    by_cases hru : r = u
    · subst hru
      have hstep : analyze_literal st r = (false, st) := analyze_literal_of_seen st r hseen
      rw [scan_clause_cons, hstep]
      simp only [if_false, Bool.false_eq_true]
      have hfil : (r :: rest).filter (fun x => !(x == r)) = rest.filter (fun x => !(x == r)) := by
        simp [List.filter_cons]
      rw [hfil]
      exact ih st opn hseen
    · have hfil : (r :: rest).filter (fun x => !(x == u)) =
          r :: rest.filter (fun x => !(x == u)) := by
        simp [List.filter_cons, hru]
      rw [hfil, scan_clause_cons, scan_clause_cons]
      exact ih (analyze_literal st r).2 _ (analyze_literal_seen_mono st r u.natAbs hseen)

/-! ## Preservation of `TrailWF` -/

theorem trailWF_analyze_literal (F : List (List Int)) (st : Internal) (lit : Int)
    (h : TrailWF F st) : TrailWF F (analyze_literal st lit).2 := by
  have htr := analyze_literal_trail st lit
  have hlv := analyze_literal_level st lit
  refine ⟨?_, ?_, ?_, ?_, ?_, ?_, ?_, ?_, ?_⟩
  · intro j hj
    rw [htr] at hj ⊢
    exact h.nz j hj
  · intro j hj
    rw [htr] at hj ⊢
    rw [analyze_literal_vtab_trail]
    exact h.pos j hj
  · intro j hj k hk hjk
    rw [htr] at hj hk ⊢
    exact h.distinct j hj k hk hjk
  · intro j hj
    rw [htr] at hj ⊢
    rw [analyze_literal_vtab_level, hlv]
    exact h.lev_le j hj
  · intro k hk j hj
    rw [htr] at hk ⊢
    rw [analyze_literal_vtab_level, analyze_literal_vtab_level]
    exact h.lev_mono k hk j hj
  · intro j hj
    rw [htr] at hj ⊢
    rw [analyze_literal_vtab_level]
    exact h.root_ent j hj
  · intro j hj R hR
    rw [htr] at hj ⊢
    rw [analyze_literal_vtab_reason, htr] at hR
    exact h.reason_ok j hj R hR
  · intro j hj h0 heq
    rw [htr] at hj ⊢
    rw [analyze_literal_vtab_level, analyze_literal_vtab_level, htr] at heq
    rw [analyze_literal_vtab_reason]
    exact h.dec_first j hj h0 heq
  · rw [hlv]
    exact h.lvl_pos

/-! ## Frame of `resolve_clause` -/

theorem resolve_clause_frame (st : Internal) (cid : Nat) :
    (resolve_clause st cid).trail = st.trail ∧
    (resolve_clause st cid).level = st.level ∧
    (resolve_clause st cid).vtab = st.vtab ∧
    (resolve_clause st cid).clause = st.clause ∧
    (resolve_clause st cid).ctab = st.ctab ∧
    (resolve_clause st cid).conflict = st.conflict := by
  unfold resolve_clause
  dsimp only
  split
  · exact ⟨rfl, rfl, rfl, rfl, rfl, rfl⟩
  split
  · exact ⟨rfl, rfl, rfl, rfl, rfl, rfl⟩
  split
  · exact ⟨rfl, rfl, rfl, rfl, rfl, rfl⟩
  · exact ⟨rfl, rfl, rfl, rfl, rfl, rfl⟩

/-! ## The single-literal step of the resolution scan

Processing one literal of the clause being resolved preserves the trail
contract and the loop bookkeeping invariant, turns the explicit obligation
for that literal into clause/pending bookkeeping, and adjusts the open count
exactly when the literal counts toward the current level. -/

theorem analyze_literal_step (F : List (List Int)) (st : Internal) (r : Int) (i : Nat)
    (wf : TrailWF F st) (inv : AInv st) (hi : i ≤ st.trail.length)
    {p : Nat} (hp : p < i) (hpl : p < st.trail.length) (hpe : st.trail.getD p 0 = -r)
    (rest : List Int)
    (hent : entails F (st.clause ++ pend st i ++ (r :: rest))) :
    TrailWF F (analyze_literal st r).2 ∧ AInv (analyze_literal st r).2 ∧
    entails F ((analyze_literal st r).2.clause ++ pend (analyze_literal st r).2 i ++ rest) ∧
    (ccount (analyze_literal st r).2 i : Int) =
      (ccount st i : Int) + (if (analyze_literal st r).1 then 1 else 0) ∧
    (∀ w, (st.vtab w).seen = true → ((analyze_literal st r).2.vtab w).seen = true) ∧
    (0 < (st.vtab r.natAbs).level → ((analyze_literal st r).2.vtab r.natAbs).seen = true) := by
  have hnat : (st.trail.getD p 0).natAbs = r.natAbs := by rw [hpe]; exact Int.natAbs_neg r
  have hr0 : r ≠ 0 := by
    have hnz := wf.nz p hpl
    rw [hpe] at hnz
    omega
  have hmono := analyze_literal_seen_mono st r
  by_cases hseen : (st.vtab r.natAbs).seen = true
  · -- the literal is already seen: a no-op; discharge it against clause or pend
    have heq : analyze_literal st r = (false, st) := analyze_literal_of_seen st r hseen
    have hseen_p : (st.vtab (st.trail.getD p 0).natAbs).seen = true := by rw [hnat]; exact hseen
    have hlev_pos := inv.seen_pos p hpl hseen_p
    have hlev_le := wf.lev_le p hpl
    refine ⟨by rw [heq]; exact wf, by rw [heq]; exact inv, ?_, by rw [heq]; simp, hmono,
      fun _ => by rw [heq]; exact hseen⟩
    rw [heq]
    by_cases hcl : (st.vtab r.natAbs).level = st.level
    · have hcond : pcond st (st.trail.getD p 0) = true := by
        unfold pcond
        rw [hnat]
        simp [hseen, hcl]
      have hrp : r ∈ pend st i := by
        rw [mem_pend]
        exact ⟨st.trail.getD p 0, getD_mem_take _ hp hpl, hcond, by rw [hpe, neg_neg]⟩
      refine entails_sub ?_ hent
      intro l hl
      rcases List.mem_append.mp hl with h | h
      · exact List.mem_append.mpr (Or.inl h)
      · rcases List.mem_cons.mp h with h | h
        · exact List.mem_append.mpr (Or.inl (List.mem_append.mpr (Or.inr (h ▸ hrp))))
        · exact List.mem_append.mpr (Or.inr h)
    · have hlow : (st.vtab r.natAbs).level < st.level := by
        rw [hnat] at hlev_le
        omega
      have hrc : r ∈ st.clause := by
        have hmem := inv.low_seen p hpl hseen_p (by rw [hnat]; exact hlow)
        rwa [hpe, neg_neg] at hmem
      refine entails_sub ?_ hent
      intro l hl
      rcases List.mem_append.mp hl with h | h
      · exact List.mem_append.mpr (Or.inl h)
      · rcases List.mem_cons.mp h with h | h
        · exact List.mem_append.mpr (Or.inl (List.mem_append.mpr (Or.inl (h ▸ hrc))))
        · exact List.mem_append.mpr (Or.inr h)
  · have hseen' : (st.vtab r.natAbs).seen = false := by
      cases h : (st.vtab r.natAbs).seen
      · rfl
      · exact absurd h hseen
    by_cases hlev0 : (st.vtab r.natAbs).level = 0
    · -- a root literal: a no-op; discharge it by the entailed root unit
      have heq : analyze_literal st r = (false, st) := analyze_literal_of_root st r hseen' hlev0
      have hroot := wf.root_ent p hpl (by rw [hnat]; exact hlev0)
      rw [hpe] at hroot
      refine ⟨by rw [heq]; exact wf, by rw [heq]; exact inv, ?_, by rw [heq]; simp, hmono,
        fun h0 => absurd hlev0 (by omega)⟩
      rw [heq]
      exact entails_unit_discharge hr0 hent hroot
    · -- the literal is marked seen
      have hcl := analyze_literal_clause_eq st r hseen' hlev0
      have hvt := analyze_literal_vtab_eq st r hseen' hlev0
      have hfst := analyze_literal_fst st r hseen' hlev0
      have htr := analyze_literal_trail st r
      have hlv := analyze_literal_level st r
      have hwf1 := trailWF_analyze_literal F st r wf
      have hlast : 0 < (st.vtab r.natAbs).level →
          ((analyze_literal st r).2.vtab r.natAbs).seen = true :=
        fun _ => analyze_literal_seen_set st r hseen' hlev0
      have hpc_other : ∀ t : Int, t.natAbs ≠ r.natAbs →
          pcond (analyze_literal st r).2 t = pcond st t := by
        intro t hta
        unfold pcond
        rw [hvt, upd_other _ _ _ hta, hlv]
      have ht_id : ∀ q, q < st.trail.length → (st.trail.getD q 0).natAbs = r.natAbs →
          st.trail.getD q 0 = -r := by
        intro q hql hta
        by_cases hqp : q = p
        · rw [hqp, hpe]
        · have hd := wf.distinct q hql p hpl hqp
          rw [hnat] at hd
          exact absurd hta hd
      have hvt_at : (analyze_literal st r).2.vtab r.natAbs =
          { st.vtab r.natAbs with seen := true } := by
        rw [hvt, upd_same]
      by_cases hlt : (st.vtab r.natAbs).level < st.level
      · -- below the current level: the literal joins the learned clause
        have hclause1 : (analyze_literal st r).2.clause = st.clause ++ [r] := by
          rw [hcl, if_pos hlt]
        have hfst_false : (analyze_literal st r).1 = false := by
          rw [hfst]
          exact beq_eq_false_iff_ne.mpr (Nat.ne_of_lt hlt)
        have hpc_new : pcond (analyze_literal st r).2 (-r) = false := by
          unfold pcond
          rw [Int.natAbs_neg, hvt_at, hlv]
          simp only [Bool.and_eq_false_iff]
          right
          exact beq_eq_false_iff_ne.mpr (Nat.ne_of_lt hlt)
        have hpc_old : pcond st (-r) = false := by
          unfold pcond
          rw [Int.natAbs_neg, hseen']
          rfl
        have hpc_all : ∀ t ∈ st.trail.take i,
            pcond (analyze_literal st r).2 t = pcond st t := by
          intro t ht
          by_cases hta : t.natAbs = r.natAbs
          · obtain ⟨q, hqi, hql, hqe⟩ := mem_take_exists _ ht
            have : t = -r := by rw [← hqe]; exact ht_id q hql (by rw [hqe]; exact hta)
            rw [this, hpc_new, hpc_old]
          · exact hpc_other t hta
        have hpend1 : pend (analyze_literal st r).2 i = pend st i := by
          unfold pend
          rw [htr, List.filter_congr hpc_all]
        have hcc1 : ccount (analyze_literal st r).2 i = ccount st i := by
          unfold ccount
          rw [htr]
          exact countP_congr_mem _ _ _ hpc_all
        refine ⟨hwf1, ?_, ?_, ?_, hmono, hlast⟩
        · refine ⟨?_, ?_, ?_⟩
          · intro j hj hsj
            rw [htr] at hj hsj ⊢
            rw [analyze_literal_vtab_level]
            by_cases hta : (st.trail.getD j 0).natAbs = r.natAbs
            · rw [hta]
              omega
            · rw [analyze_literal_seen_other st r _ hta] at hsj
              exact inv.seen_pos j hj hsj
          · intro l hl
            rw [hclause1] at hl
            rw [analyze_literal_vtab_level, hlv]
            rcases List.mem_append.mp hl with h | h
            · exact inv.clause_lits l h
            · have : l = r := by simpa using h
              subst this
              exact ⟨by omega, hlt⟩
          · intro j hj hsj hlo
            rw [htr] at hj hsj ⊢
            rw [analyze_literal_vtab_level, hlv, htr] at hlo
            rw [hclause1]
            by_cases hta : (st.trail.getD j 0).natAbs = r.natAbs
            · have : st.trail.getD j 0 = -r := ht_id j hj hta
              rw [this, neg_neg]
              exact List.mem_append.mpr (Or.inr (List.mem_cons_self r []))
            · rw [analyze_literal_seen_other st r _ hta] at hsj
              exact List.mem_append.mpr (Or.inl (inv.low_seen j hj hsj hlo))
        · rw [hclause1, hpend1]
          refine entails_sub ?_ hent
          intro l hl
          rcases List.mem_append.mp hl with h | h
          · rcases List.mem_append.mp h with h | h
            · exact List.mem_append.mpr (Or.inl (List.mem_append.mpr
                (Or.inl (List.mem_append.mpr (Or.inl h)))))
            · exact List.mem_append.mpr (Or.inl (List.mem_append.mpr (Or.inr h)))
          · rcases List.mem_cons.mp h with h | h
            · exact List.mem_append.mpr (Or.inl (List.mem_append.mpr
                (Or.inl (List.mem_append.mpr (Or.inr (by simp [h]))))))
            · exact List.mem_append.mpr (Or.inr h)
        · rw [hcc1, hfst_false]
          simp
      · -- at the current level: counts toward `open`, joins the pending set
        have heq_lvl : (st.vtab r.natAbs).level = st.level := by
          have hle := wf.lev_le p hpl
          rw [hnat] at hle
          omega
        have hclause1 : (analyze_literal st r).2.clause = st.clause := by
          rw [hcl, if_neg hlt]
        have hfst_true : (analyze_literal st r).1 = true := by
          rw [hfst, heq_lvl]
          exact beq_self_eq_true _
        have hpc_new : pcond (analyze_literal st r).2 (-r) = true := by
          unfold pcond
          rw [Int.natAbs_neg, hvt_at, hlv]
          simp [heq_lvl]
        have hpc_old : pcond st (-r) = false := by
          unfold pcond
          rw [Int.natAbs_neg, hseen']
          rfl
        have hcc1 : (ccount (analyze_literal st r).2 i : Int) = (ccount st i : Int) + 1 := by
          unfold ccount
          rw [htr]
          have hcongr : ∀ q, q < st.trail.length → q ≠ p →
              pcond st (st.trail.getD q 0) = pcond (analyze_literal st r).2 (st.trail.getD q 0) := by
            intro q hql hqp
            have hd := wf.distinct q hql p hpl hqp
            rw [hnat] at hd
            exact (hpc_other _ hd).symm
          have hgf : pcond st (st.trail.getD p 0) = false := by rw [hpe]; exact hpc_old
          have hgg : pcond (analyze_literal st r).2 (st.trail.getD p 0) = true := by
            rw [hpe]; exact hpc_new
          have := countP_update (pcond st) (pcond (analyze_literal st r).2)
            st.trail p hpl hcongr hgf hgg i hi
          rw [if_pos hp] at this
          omega
        refine ⟨hwf1, ?_, ?_, ?_, hmono, hlast⟩
        · refine ⟨?_, ?_, ?_⟩
          · intro j hj hsj
            rw [htr] at hj hsj ⊢
            rw [analyze_literal_vtab_level]
            by_cases hta : (st.trail.getD j 0).natAbs = r.natAbs
            · rw [hta, heq_lvl]
              exact wf.lvl_pos
            · rw [analyze_literal_seen_other st r _ hta] at hsj
              exact inv.seen_pos j hj hsj
          · intro l hl
            rw [hclause1] at hl
            rw [analyze_literal_vtab_level, hlv]
            exact inv.clause_lits l hl
          · intro j hj hsj hlo
            rw [htr] at hj hsj ⊢
            rw [analyze_literal_vtab_level, hlv, htr] at hlo
            rw [hclause1]
            by_cases hta : (st.trail.getD j 0).natAbs = r.natAbs
            · rw [hta, heq_lvl] at hlo
              omega
            · rw [analyze_literal_seen_other st r _ hta] at hsj
              exact inv.low_seen j hj hsj hlo
        · rw [hclause1]
          refine entails_sub ?_ hent
          intro l hl
          rcases List.mem_append.mp hl with h | h
          · rcases List.mem_append.mp h with h | h
            · exact List.mem_append.mpr (Or.inl (List.mem_append.mpr (Or.inl h)))
            · -- an old pending literal stays pending
              rw [mem_pend] at h
              obtain ⟨t, ht, hcond, hlt'⟩ := h
              have hta : t.natAbs ≠ r.natAbs := by
                intro hta
                obtain ⟨q, hqi, hql, hqe⟩ := mem_take_exists _ ht
                have : t = -r := by rw [← hqe]; exact ht_id q hql (by rw [hqe]; exact hta)
                rw [this, hpc_old] at hcond
                exact Bool.false_ne_true hcond
              have hcond1 : pcond (analyze_literal st r).2 t = true := by
                rw [hpc_other t hta]
                exact hcond
              refine List.mem_append.mpr (Or.inl (List.mem_append.mpr (Or.inr ?_)))
              rw [mem_pend]
              exact ⟨t, by rw [htr]; exact ht, hcond1, hlt'⟩
          · rcases List.mem_cons.mp h with h | h
            · -- the literal itself becomes pending
              refine List.mem_append.mpr (Or.inl (List.mem_append.mpr (Or.inr ?_)))
              rw [mem_pend]
              refine ⟨-r, ?_, hpc_new, by rw [h, neg_neg]⟩
              rw [htr, ← hpe]
              exact getD_mem_take _ hp hpl
            · exact List.mem_append.mpr (Or.inr h)
        · rw [hcc1, hfst_true]
          simp

/-! ## Soundness of one full clause scan -/

theorem scan_clause_sound (F : List (List Int)) :
    ∀ (todo : List Int) (st : Internal) (opn : Int) (i : Nat),
    TrailWF F st → AInv st → i ≤ st.trail.length →
    (∀ r ∈ todo, ∃ p, p < i ∧ p < st.trail.length ∧ st.trail.getD p 0 = -r) →
    entails F (st.clause ++ pend st i ++ todo) →
    opn = (ccount st i : Int) →
    TrailWF F (scan_clause st todo opn).2 ∧
    AInv (scan_clause st todo opn).2 ∧
    (scan_clause st todo opn).2.trail = st.trail ∧
    (scan_clause st todo opn).2.level = st.level ∧
    (∀ w, ((scan_clause st todo opn).2.vtab w).level = (st.vtab w).level) ∧
    entails F ((scan_clause st todo opn).2.clause ++ pend (scan_clause st todo opn).2 i) ∧
    (scan_clause st todo opn).1 = (ccount (scan_clause st todo opn).2 i : Int) ∧
    (∀ w, (st.vtab w).seen = true → ((scan_clause st todo opn).2.vtab w).seen = true) ∧
    (∀ r ∈ todo, 0 < (st.vtab r.natAbs).level →
      ((scan_clause st todo opn).2.vtab r.natAbs).seen = true) := by
  intro todo
  induction todo with
  | nil =>
    intro st opn i wf inv hi hhyps hent hopn
    rw [scan_clause_nil]
    refine ⟨wf, inv, rfl, rfl, fun w => rfl, ?_, hopn, fun w h => h,
      fun r hr => absurd hr (List.not_mem_nil r)⟩
    have hnil : st.clause ++ pend st i ++ [] = st.clause ++ pend st i := by simp
    rwa [hnil] at hent
  | cons r rest ih =>
    intro st opn i wf inv hi hhyps hent hopn
    obtain ⟨p, hp, hpl, hpe⟩ := hhyps r (List.mem_cons_self r rest)
    obtain ⟨hwf1, hinv1, hent1, hcc1, hmono1, hself1⟩ :=
      analyze_literal_step F st r i wf inv hi hp hpl hpe rest hent
    rw [scan_clause_cons]
    have htr1 : (analyze_literal st r).2.trail = st.trail := analyze_literal_trail st r
    have hlv1 : (analyze_literal st r).2.level = st.level := analyze_literal_level st r
    have hvl1 : ∀ w, ((analyze_literal st r).2.vtab w).level = (st.vtab w).level :=
      analyze_literal_vtab_level st r
    have hhyps1 : ∀ x ∈ rest, ∃ q, q < i ∧ q < (analyze_literal st r).2.trail.length ∧
        (analyze_literal st r).2.trail.getD q 0 = -x := by
      intro x hx
      obtain ⟨q, h1, h2, h3⟩ := hhyps x (List.mem_cons_of_mem r hx)
      exact ⟨q, h1, by rw [htr1]; exact h2, by rw [htr1]; exact h3⟩
    have hopn1 : (if (analyze_literal st r).1 then opn + 1 else opn) =
        (ccount (analyze_literal st r).2 i : Int) := by
      have hcc' : (ccount (analyze_literal st r).2 i : Int) =
          opn + (if (analyze_literal st r).1 then 1 else 0) := by
        rw [hcc1, hopn]
      rw [hcc']
      split <;> simp
    obtain ⟨w1, w2, w3, w4, w5, w6, w7, w8, w9⟩ :=
      ih (analyze_literal st r).2 _ i hwf1 hinv1 (by rw [htr1]; exact hi) hhyps1 hent1 hopn1
    refine ⟨w1, w2, by rw [w3, htr1], by rw [w4, hlv1], fun w => by rw [w5 w, hvl1 w],
      w6, w7, fun w h => w8 w (hmono1 w h), ?_⟩
    intro x hx h0
    rcases List.mem_cons.mp hx with h | h
    · subst h
      exact w8 x.natAbs (hself1 h0)
    · refine w9 x h ?_
      rw [hvl1]
      exact h0

/-! ## Soundness of the full resolution loop -/

theorem analyze_loop_succ (fuel : Nat) (st : Internal) (reason : List Int) (opn : Int)
    (i : Nat) :
    analyze_loop (fuel + 1) st reason opn i =
      (match find_uip (scan_clause st reason opn).2.vtab
          (scan_clause st reason opn).2.trail i with
      | none => none
      | some j =>
        if (scan_clause st reason opn).1 - 1 = 0
        then some ((scan_clause st reason opn).2, (scan_clause st reason opn).2.trail.getD j 0)
        else
          match ((scan_clause st reason opn).2.vtab
              ((scan_clause st reason opn).2.trail.getD j 0).natAbs).reason with
          | none => none
          | some r =>
            analyze_loop fuel (scan_clause st reason opn).2 r
              ((scan_clause st reason opn).1 - 1) j) := rfl

theorem analyze_loop_sound (F : List (List Int)) :
    ∀ (fuel : Nat) (st : Internal) (reason reasonEff : List Int) (opn : Int) (i : Nat)
      (st' : Internal) (uip : Int),
    TrailWF F st → AInv st → i ≤ st.trail.length →
    scan_clause st reason opn = scan_clause st reasonEff opn →
    (∀ r ∈ reasonEff, ∃ p, p < i ∧ p < st.trail.length ∧ st.trail.getD p 0 = -r) →
    entails F (st.clause ++ pend st i ++ reasonEff) →
    opn = (ccount st i : Int) →
    (1 ≤ opn ∨ ∃ c ∈ reasonEff, 0 < (st.vtab c.natAbs).level ∧
      (st.vtab c.natAbs).level = st.level) →
    analyze_loop fuel st reason opn i = some (st', uip) →
    entails F (st'.clause ++ [-uip]) ∧
    (∀ l ∈ st'.clause, (st'.vtab l.natAbs).level < st'.level) ∧
    (st'.vtab uip.natAbs).level = st'.level ∧
    uip ≠ 0 ∧
    st'.level = st.level := by
  intro fuel
  induction fuel with
  | zero =>
    intro st reason reasonEff opn i st' uip _ _ _ _ _ _ _ _ hrun
    simp [analyze_loop] at hrun
  | succ fuel ih =>
    intro st reason reasonEff opn i st' uip wf inv hi hscan_eq hhyps hent hopn hcur hrun
    rw [analyze_loop_succ, hscan_eq] at hrun
    obtain ⟨qwf, qinv, qtr, qlv, qvl, qent, qcnt, qmono, qseen⟩ :=
      scan_clause_sound F reasonEff st opn i wf inv hi hhyps hent hopn
    have hilen : i ≤ (scan_clause st reasonEff opn).2.trail.length := by
      rw [qtr]; exact hi
    -- the open count after the scan is at least one
    have hcnt_pos : 1 ≤ (ccount (scan_clause st reasonEff opn).2 i : Int) := by
      rcases hcur with h | ⟨c, hc, hc0, hcl⟩
      · have hmono_cc : ccount st i ≤ ccount (scan_clause st reasonEff opn).2 i := by
          unfold ccount
          rw [qtr]
          apply List.countP_mono_left
          intro t _ hpt
          unfold pcond at hpt ⊢
          simp only [Bool.and_eq_true, beq_iff_eq] at hpt ⊢
          exact ⟨qmono _ hpt.1, by rw [qvl, qlv]; exact hpt.2⟩
        omega
      · obtain ⟨p, hp, hpl, hpe⟩ := hhyps c hc
        have hseenc := qseen c hc hc0
        have hpcond : pcond (scan_clause st reasonEff opn).2 (st.trail.getD p 0) = true := by
          unfold pcond
          rw [hpe]
          simp only [Int.natAbs_neg, Bool.and_eq_true, beq_iff_eq]
          exact ⟨hseenc, by rw [qvl, qlv]; exact hcl⟩
        have hposc : 0 < ccount (scan_clause st reasonEff opn).2 i := by
          unfold ccount
          refine List.countP_pos_iff.mpr ⟨st.trail.getD p 0, ?_, hpcond⟩
          rw [qtr]
          exact getD_mem_take _ hp hpl
        omega
    -- a seen entry exists below i, so the trail walk succeeds
    have hcnt0 : 0 < ccount (scan_clause st reasonEff opn).2 i := by omega
    have hex_seen : ∃ psn, psn < i ∧
        ((scan_clause st reasonEff opn).2.vtab
          ((scan_clause st reasonEff opn).2.trail.getD psn 0).natAbs).seen = true := by
      unfold ccount at hcnt0
      obtain ⟨t, ht, hpt⟩ := List.countP_pos_iff.mp hcnt0
      obtain ⟨qq, hq1, _, hq3⟩ := mem_take_exists _ ht
      refine ⟨qq, hq1, ?_⟩
      unfold pcond at hpt
      simp only [Bool.and_eq_true] at hpt
      rw [hq3]
      exact hpt.1
    obtain ⟨j, hjfind⟩ : ∃ j, find_uip (scan_clause st reasonEff opn).2.vtab
        (scan_clause st reasonEff opn).2.trail i = some j := by
      obtain ⟨psn, h1, h2⟩ := hex_seen
      have hsome := find_uip_isSome _ _ i psn h1 h2
      cases hf : find_uip (scan_clause st reasonEff opn).2.vtab
          (scan_clause st reasonEff opn).2.trail i with
      | none => rw [hf] at hsome; simp at hsome
      | some j => exact ⟨j, rfl⟩
    obtain ⟨hji, hjseen, hjmid⟩ := find_uip_spec _ _ i j hjfind
    have hjlen : j < (scan_clause st reasonEff opn).2.trail.length := by omega
    -- the walk stops on a current-level variable
    have hwit : ∃ qq, qq ≤ j ∧
        pcond (scan_clause st reasonEff opn).2
          ((scan_clause st reasonEff opn).2.trail.getD qq 0) = true := by
      unfold ccount at hcnt0
      obtain ⟨t, ht, hpt⟩ := List.countP_pos_iff.mp hcnt0
      obtain ⟨qq, hq1, _, hq3⟩ := mem_take_exists _ ht
      refine ⟨qq, ?_, by rw [hq3]; exact hpt⟩
      by_cases hqj : qq ≤ j
      · exact hqj
      · have hfalse := hjmid qq (by omega) hq1
        rw [hq3] at hfalse
        unfold pcond at hpt
        simp only [Bool.and_eq_true] at hpt
        rw [hfalse] at hpt
        exact absurd hpt.1 Bool.false_ne_true
    have hjlev : ((scan_clause st reasonEff opn).2.vtab
        ((scan_clause st reasonEff opn).2.trail.getD j 0).natAbs).level =
        (scan_clause st reasonEff opn).2.level := by
      obtain ⟨qq, hqj, hqp⟩ := hwit
      unfold pcond at hqp
      simp only [Bool.and_eq_true, beq_iff_eq] at hqp
      have hle1 := qwf.lev_mono j hjlen qq hqj
      have hle2 := qwf.lev_le j hjlen
      omega
    have hjcond : pcond (scan_clause st reasonEff opn).2
        ((scan_clause st reasonEff opn).2.trail.getD j 0) = true := by
      unfold pcond
      rw [hjseen, hjlev]
      simp
    have hjmid' : ∀ qq, j < qq → qq < i →
        pcond (scan_clause st reasonEff opn).2
          ((scan_clause st reasonEff opn).2.trail.getD qq 0) = false := by
      intro qq h1 h2
      unfold pcond
      rw [hjmid qq h1 h2]
      rfl
    obtain ⟨hpsplit, hcsplit⟩ := pend_split (scan_clause st reasonEff opn).2 hji hilen hjcond hjmid'
    have hu0 : (scan_clause st reasonEff opn).2.trail.getD j 0 ≠ 0 := qwf.nz j hjlen
    rw [hjfind] at hrun
    dsimp only at hrun
    by_cases hbreak : (scan_clause st reasonEff opn).1 - 1 = 0
    · rw [if_pos hbreak] at hrun
      have hpair := Option.some.inj hrun
      have hst' : st' = (scan_clause st reasonEff opn).2 := (congrArg Prod.fst hpair).symm
      have huip : uip = (scan_clause st reasonEff opn).2.trail.getD j 0 :=
        (congrArg Prod.snd hpair).symm
      subst hst'
      subst huip
      have hccj : ccount (scan_clause st reasonEff opn).2 j = 0 := by omega
      have hpendj : pend (scan_clause st reasonEff opn).2 j = [] :=
        pend_eq_nil_of_ccount _ _ hccj
      rw [hpsplit, hpendj] at qent
      refine ⟨?_, fun l hl => (qinv.clause_lits l hl).2, hjlev, hu0, qlv⟩
      simpa using qent
    · rw [if_neg hbreak] at hrun
      have hcj_eq : ((scan_clause st reasonEff opn).1 - 1 : Int) =
          (ccount (scan_clause st reasonEff opn).2 j : Int) := by omega
      have hcj_pos : 1 ≤ ((scan_clause st reasonEff opn).1 - 1 : Int) := by omega
      -- the stopping variable has a reason clause
      obtain ⟨qq, hqj, hqp⟩ := hwit
      have hqq_lt : qq < j ∨ qq = j := by omega
      have hwitj : ∃ qq', qq' < j ∧
          pcond (scan_clause st reasonEff opn).2
            ((scan_clause st reasonEff opn).2.trail.getD qq' 0) = true := by
        have hccj_pos : 0 < ccount (scan_clause st reasonEff opn).2 j := by omega
        unfold ccount at hccj_pos
        obtain ⟨t, ht, hpt⟩ := List.countP_pos_iff.mp hccj_pos
        obtain ⟨qq', hq1, _, hq3⟩ := mem_take_exists _ ht
        exact ⟨qq', hq1, by rw [hq3]; exact hpt⟩
      obtain ⟨qq', hqq'j, hqq'p⟩ := hwitj
      have hj1 : 0 < j := by omega
      have hprevlev : ((scan_clause st reasonEff opn).2.vtab
          ((scan_clause st reasonEff opn).2.trail.getD (j - 1) 0).natAbs).level =
          (scan_clause st reasonEff opn).2.level := by
        unfold pcond at hqq'p
        simp only [Bool.and_eq_true, beq_iff_eq] at hqq'p
        have h1 := qwf.lev_mono (j - 1) (by omega) qq' (by omega)
        have h2 := qwf.lev_mono j hjlen (j - 1) (by omega)
        omega
      have hreason := qwf.dec_first j hjlen hj1 (by rw [hjlev, hprevlev])
      obtain ⟨R, hR⟩ : ∃ R, ((scan_clause st reasonEff opn).2.vtab
          ((scan_clause st reasonEff opn).2.trail.getD j 0).natAbs).reason = some R := by
        cases hrr : ((scan_clause st reasonEff opn).2.vtab
            ((scan_clause st reasonEff opn).2.trail.getD j 0).natAbs).reason with
        | none => exact absurd hrr hreason
        | some R => exact ⟨R, rfl⟩
      rw [hR] at hrun
      dsimp only at hrun
      obtain ⟨hRent, hRmem, hRpos⟩ := qwf.reason_ok j hjlen R hR
      -- resolve the pending literal of the pivot against its reason
      have hentj : entails F (((scan_clause st reasonEff opn).2.clause ++
          pend (scan_clause st reasonEff opn).2 j) ++
          [-((scan_clause st reasonEff opn).2.trail.getD j 0)]) := by
        rw [hpsplit] at qent
        rw [List.append_assoc]
        exact qent
      have hres := entails_resolve hu0 hentj hRent
      have hsfilter := scan_clause_filter_seen
        ((scan_clause st reasonEff opn).2.trail.getD j 0) R
        (scan_clause st reasonEff opn).2 ((scan_clause st reasonEff opn).1 - 1) hjseen
      have hhyps' : ∀ x ∈ R.filter
          (fun x => !(x == (scan_clause st reasonEff opn).2.trail.getD j 0)),
          ∃ p', p' < j ∧ p' < (scan_clause st reasonEff opn).2.trail.length ∧
            (scan_clause st reasonEff opn).2.trail.getD p' 0 = -x := by
        intro x hx
        rw [List.mem_filter] at hx
        have hxu : x ≠ (scan_clause st reasonEff opn).2.trail.getD j 0 := by
          simpa using hx.2
        obtain ⟨pp, hpp1, hpp2⟩ := hRpos x hx.1 hxu
        exact ⟨pp, hpp1, by omega, hpp2⟩
      have hent' : entails F ((scan_clause st reasonEff opn).2.clause ++
          pend (scan_clause st reasonEff opn).2 j ++
          R.filter (fun x => !(x == (scan_clause st reasonEff opn).2.trail.getD j 0))) := hres
      obtain ⟨c1, c2, c3, c4, c5⟩ := ih (scan_clause st reasonEff opn).2 R
        (R.filter (fun x => !(x == (scan_clause st reasonEff opn).2.trail.getD j 0)))
        ((scan_clause st reasonEff opn).1 - 1) j st' uip
        qwf qinv (by omega) hsfilter hhyps' hent' hcj_eq (Or.inl hcj_pos) hrun
      exact ⟨c1, c2, c3, c4, c5.trans qlv⟩

/-! ## The first-UIP derivation: soundness and uniqueness -/

theorem analyzeFirstUIP_eq (fuel : Nat) (st : Internal) (ccid : Nat)
    (hc : st.conflict = some ccid) :
    analyzeFirstUIP fuel st =
      (match analyze_loop fuel (resolve_clause st ccid)
          ((resolve_clause st ccid).ctab ccid).lits 0
          (resolve_clause st ccid).trail.length with
      | none => none
      | some p => some ({ p.1 with clause := p.1.clause ++ [-p.2] }, p.2)) := by
  unfold analyzeFirstUIP
  rw [hc]

theorem trailWF_congr (F : List (List Int)) (st st' : Internal)
    (h1 : st'.trail = st.trail) (h2 : st'.vtab = st.vtab) (h3 : st'.level = st.level)
    (h : TrailWF F st) : TrailWF F st' := by
  refine ⟨?_, ?_, ?_, ?_, ?_, ?_, ?_, ?_, ?_⟩
  · intro j hj
    rw [h1] at hj ⊢
    exact h.nz j hj
  · intro j hj
    rw [h1] at hj ⊢
    rw [h2]
    exact h.pos j hj
  · intro j hj k hk hjk
    rw [h1] at hj hk ⊢
    exact h.distinct j hj k hk hjk
  · intro j hj
    rw [h1] at hj ⊢
    rw [h2, h3]
    exact h.lev_le j hj
  · intro k hk j hj
    rw [h1] at hk ⊢
    rw [h2]
    exact h.lev_mono k hk j hj
  · intro j hj h0
    rw [h1] at hj h0 ⊢
    rw [h2] at h0
    exact h.root_ent j hj h0
  · intro j hj R hR
    rw [h1] at hj hR ⊢
    rw [h2] at hR
    exact h.reason_ok j hj R hR
  · intro j hj h0 heq
    rw [h1] at hj heq ⊢
    rw [h2] at heq ⊢
    exact h.dec_first j hj h0 heq
  · rw [h3]
    exact h.lvl_pos

/-- The hypotheses of the C1 and C2 claims: a conflict is set, the trail is
well-formed, the transient state is clean (empty buffer, no seen marks), and
the conflict clause is entailed, fully falsified on the trail, and touches
the current decision level. -/
structure AnalyzePre (F : List (List Int)) (st : Internal) (ccid : Nat) : Prop where
  conflict_eq : st.conflict = some ccid
  wf : TrailWF F st
  clause0 : st.clause = []
  unseen : ∀ j, j < st.trail.length → (st.vtab (st.trail.getD j 0).natAbs).seen = false
  conflict_ent : entails F (st.ctab ccid).lits
  conflict_fals : ∀ c ∈ (st.ctab ccid).lits,
    ∃ p, p < st.trail.length ∧ st.trail.getD p 0 = -c
  conflict_cur : ∃ c ∈ (st.ctab ccid).lits, (st.vtab c.natAbs).level = st.level

theorem analyze_pre_loop (F : List (List Int)) (fuel : Nat) (st : Internal) (ccid : Nat)
    (pre : AnalyzePre F st ccid) (st1 : Internal) (uip : Int)
    (hl : analyze_loop fuel (resolve_clause st ccid)
      ((resolve_clause st ccid).ctab ccid).lits 0
      (resolve_clause st ccid).trail.length = some (st1, uip)) :
    entails F (st1.clause ++ [-uip]) ∧
    (∀ l ∈ st1.clause, (st1.vtab l.natAbs).level < st1.level) ∧
    (st1.vtab uip.natAbs).level = st1.level ∧
    uip ≠ 0 := by
  obtain ⟨f1, f2, f3, f4, f5, _⟩ := resolve_clause_frame st ccid
  have wf0 : TrailWF F (resolve_clause st ccid) := trailWF_congr F st _ f1 f3 f2 pre.wf
  have inv0 : AInv (resolve_clause st ccid) := by
    refine ⟨?_, ?_, ?_⟩
    · intro j hj hs
      rw [f1] at hj
      rw [f1, f3] at hs
      rw [pre.unseen j hj] at hs
      exact absurd hs Bool.false_ne_true
    · intro l hl'
      rw [f4, pre.clause0] at hl'
      exact absurd hl' (List.not_mem_nil l)
    · intro j hj hs _
      rw [f1] at hj
      rw [f1, f3] at hs
      rw [pre.unseen j hj] at hs
      exact absurd hs Bool.false_ne_true
  have hpend0 : pend (resolve_clause st ccid) (resolve_clause st ccid).trail.length = [] := by
    refine pend_eq_nil _ _ (fun t ht => ?_)
    rw [f1] at ht
    obtain ⟨q, hq1, hq2, hq3⟩ := mem_take_exists _ ht
    unfold pcond
    rw [f3, ← hq3]
    rw [pre.unseen q hq2]
    rfl
  have hcc0 : ccount (resolve_clause st ccid) (resolve_clause st ccid).trail.length = 0 := by
    unfold ccount
    refine List.countP_eq_zero.mpr (fun t ht => ?_)
    rw [f1] at ht
    obtain ⟨q, hq1, hq2, hq3⟩ := mem_take_exists _ ht
    unfold pcond
    rw [f3, ← hq3]
    rw [pre.unseen q hq2]
    simp
  have hent0 : entails F ((resolve_clause st ccid).clause ++
      pend (resolve_clause st ccid) (resolve_clause st ccid).trail.length ++
      ((resolve_clause st ccid).ctab ccid).lits) := by
    rw [f5]
    refine entails_sub ?_ pre.conflict_ent
    intro l hl'
    exact List.mem_append.mpr (Or.inr hl')
  have hhyps0 : ∀ r ∈ ((resolve_clause st ccid).ctab ccid).lits,
      ∃ p, p < (resolve_clause st ccid).trail.length ∧
        p < (resolve_clause st ccid).trail.length ∧
        (resolve_clause st ccid).trail.getD p 0 = -r := by
    rw [f5, f1]
    intro r hr
    obtain ⟨p, hp1, hp2⟩ := pre.conflict_fals r hr
    exact ⟨p, hp1, hp1, hp2⟩
  have hcur0 : (1 : Int) ≤ 0 ∨ ∃ c ∈ ((resolve_clause st ccid).ctab ccid).lits,
      0 < ((resolve_clause st ccid).vtab c.natAbs).level ∧
      ((resolve_clause st ccid).vtab c.natAbs).level = (resolve_clause st ccid).level := by
    right
    rw [f5, f3, f2]
    obtain ⟨c, hc1, hc2⟩ := pre.conflict_cur
    exact ⟨c, hc1, by rw [hc2]; exact pre.wf.lvl_pos, hc2⟩
  obtain ⟨c1, c2, c3, c4, _⟩ := analyze_loop_sound F fuel (resolve_clause st ccid)
    ((resolve_clause st ccid).ctab ccid).lits ((resolve_clause st ccid).ctab ccid).lits
    0 (resolve_clause st ccid).trail.length st1 uip wf0 inv0 (le_refl _) rfl hhyps0
    hent0 (by rw [hcc0]; rfl) hcur0 hl
  exact ⟨c1, c2, c3, c4⟩

/-- C1: for every conflict analyzed at a non-root level, the first-UIP
clause produced by the resolution loop of `analyze` (the clause buffer plus
the negated first UIP) is a logical consequence of the formula: every step
that replaces the current clause by the pivot's reason is a sound resolution
step, level-0 literals are discharged by the root units of the trail, and
the final clause is entailed. -/
theorem analyze_learned_clause_sound (F : List (List Int)) (fuel : Nat) (st : Internal)
    (ccid : Nat) (pre : AnalyzePre F st ccid) (st' : Internal) (uip : Int)
    (hrun : analyzeFirstUIP fuel st = some (st', uip)) :
    entails F st'.clause := by
  rw [analyzeFirstUIP_eq fuel st ccid pre.conflict_eq] at hrun
  cases hl : analyze_loop fuel (resolve_clause st ccid)
      ((resolve_clause st ccid).ctab ccid).lits 0
      (resolve_clause st ccid).trail.length with
  | none => rw [hl] at hrun; exact Option.noConfusion hrun
  | some p =>
    rw [hl] at hrun
    dsimp only at hrun
    have hpair := Option.some.inj hrun
    have hst' : st' = { p.1 with clause := p.1.clause ++ [-p.2] } :=
      (congrArg Prod.fst hpair).symm
    have huip : uip = p.2 := (congrArg Prod.snd hpair).symm
    obtain ⟨c1, _, _, _⟩ := analyze_pre_loop F fuel st ccid pre p.1 p.2 (by rw [hl])
    rw [hst']
    exact c1

/-- C2: the first-UIP clause contains exactly one literal assigned at the
current decision level — the negated first UIP appended after the loop
terminates — and every other literal is assigned strictly below that
level. -/
theorem analyze_learned_clause_first_uip (F : List (List Int)) (fuel : Nat) (st : Internal)
    (ccid : Nat) (pre : AnalyzePre F st ccid) (st' : Internal) (uip : Int)
    (hrun : analyzeFirstUIP fuel st = some (st', uip)) :
    (∃ body, st'.clause = body ++ [-uip] ∧
      (∀ l ∈ body, (st'.vtab l.natAbs).level < st'.level)) ∧
    (st'.vtab uip.natAbs).level = st'.level ∧
    st'.clause.countP (fun l => (st'.vtab l.natAbs).level == st'.level) = 1 := by
  rw [analyzeFirstUIP_eq fuel st ccid pre.conflict_eq] at hrun
  cases hl : analyze_loop fuel (resolve_clause st ccid)
      ((resolve_clause st ccid).ctab ccid).lits 0
      (resolve_clause st ccid).trail.length with
  | none => rw [hl] at hrun; exact Option.noConfusion hrun
  | some p =>
    rw [hl] at hrun
    dsimp only at hrun
    have hpair := Option.some.inj hrun
    have hst' : st' = { p.1 with clause := p.1.clause ++ [-p.2] } :=
      (congrArg Prod.fst hpair).symm
    have huip : uip = p.2 := (congrArg Prod.snd hpair).symm
    obtain ⟨_, c2, c3, c4⟩ := analyze_pre_loop F fuel st ccid pre p.1 p.2 (by rw [hl])
    subst huip
    have hvt : st'.vtab = p.1.vtab := by rw [hst']
    have hlv : st'.level = p.1.level := by rw [hst']
    have hcl : st'.clause = p.1.clause ++ [-p.2] := by rw [hst']
    refine ⟨⟨p.1.clause, hcl, ?_⟩, ?_, ?_⟩
    · intro l hl'
      rw [hvt, hlv]
      exact c2 l hl'
    · rw [hvt, hlv]
      exact c3
    · rw [hcl, hvt, hlv, List.countP_append]
      have hbody : p.1.clause.countP (fun l => (p.1.vtab l.natAbs).level == p.1.level) = 0 := by
        refine List.countP_eq_zero.mpr (fun l hl' hbad => ?_)
        have := c2 l hl'
        rw [beq_iff_eq] at hbad
        omega
      have hone : ([-p.2] : List Int).countP
          (fun l => (p.1.vtab l.natAbs).level == p.1.level) = 1 := by
        simp only [List.countP_cons, List.countP_nil, Int.natAbs_neg]
        rw [c3]
        simp
      rw [hbody, hone]

/-! ## The witness scenario satisfies the analysis preconditions -/

theorem uipSt_wf : TrailWF uipFormula uipSt := by
  refine ⟨by decide, by decide, by decide, by decide, by decide, ?_, ?_, ?_, by decide⟩
  · intro j hj h0
    have hj3 : j < 3 := hj
    rcases j with _ | _ | _ | j
    · exact entails_mem (by decide)
    · exact absurd h0 (by decide)
    · exact absurd h0 (by decide)
    · omega
  · intro j hj R hR
    have hj3 : j < 3 := hj
    rcases j with _ | _ | _ | j
    · exact Option.noConfusion hR
    · exact Option.noConfusion hR
    · exact Option.noConfusion hR
    · omega
  · intro j hj h0 heq
    have hj3 : j < 3 := hj
    rcases j with _ | _ | _ | j
    · omega
    · exact absurd heq (by decide)
    · exact absurd heq (by decide)
    · omega

theorem uipSt_pre : AnalyzePre uipFormula uipSt 0 :=
  ⟨rfl, uipSt_wf, rfl, by decide, entails_mem (by decide), by decide, by decide⟩

/-- Witness for C1: the spec's three-variable scenario; the derivation
terminates and its learned clause is entailed by the formula. -/
theorem analyze_learned_clause_sound_witness :
    ∃ p : Internal × Int, analyzeFirstUIP 10 uipSt = some p ∧
      entails uipFormula p.1.clause := by
  cases hl : analyzeFirstUIP 10 uipSt with
  | none =>
    have hsome : (analyzeFirstUIP 10 uipSt).isSome = true := by decide
    rw [hl] at hsome
    exact Bool.noConfusion hsome
  | some p =>
    exact ⟨p, rfl, analyze_learned_clause_sound uipFormula 10 uipSt 0 uipSt_pre p.1 p.2 hl⟩

/-- Witness for C2 at the same scenario. -/
theorem analyze_learned_clause_first_uip_witness :
    ∃ p : Internal × Int, analyzeFirstUIP 10 uipSt = some p ∧
      ((∃ body, p.1.clause = body ++ [-p.2] ∧
        (∀ l ∈ body, (p.1.vtab l.natAbs).level < p.1.level)) ∧
       (p.1.vtab p.2.natAbs).level = p.1.level ∧
       p.1.clause.countP (fun l => (p.1.vtab l.natAbs).level == p.1.level) = 1) := by
  cases hl : analyzeFirstUIP 10 uipSt with
  | none =>
    have hsome : (analyzeFirstUIP 10 uipSt).isSome = true := by decide
    rw [hl] at hsome
    exact Bool.noConfusion hsome
  | some p =>
    exact ⟨p, rfl,
      analyze_learned_clause_first_uip uipFormula 10 uipSt 0 uipSt_pre p.1 p.2 hl⟩

end Cadical
